import Mathlib

/-
 Verification of the local-alignment enumerator of seq-align
 (src/smith_waterman.c) against its specification.

 The enumerator code (smith_waterman_align2, sort_match_indices,
 _follow_hit, smith_waterman_fetch) is embedded from the C source.
 The DP engine and the scoring configuration live in sibling modules
 that are not part of this repository snapshot (alignment.c,
 alignment_scoring.c); they are modelled from the specification
 (sections 4.1-4.3 of spec.md), as noted on each such definition.

 Machine integers: scores are modelled as unbounded Int (the spec
 declares overflow undefined and out of scope); matrix indices and
 cursors as Nat.  The consumed-cell bit array is a List Bool.
-/

/-- The three DP matrix tags, from `enum Matrix` (MATCH, GAP_A, GAP_B). -/
inductive Mat where
  | MATCH : Mat
  | GAP_A : Mat
  | GAP_B : Mat
deriving DecidableEq, Repr

/-- Modelled from the spec (section 3, "Scoring configuration"): the
immutable scoring record.  The substitution table is a finite list of
entries; `match_score`/`mismatch` are the fallback scores. -/
structure scoring_t where
  match_score : Int
  mismatch : Int
  gap_open : Int
  gap_extend : Int
  case_sensitive : Bool
  use_match_mismatch : Bool
  swap_table : List ((Char × Char) × Int)
  wildcards : List Char
  no_start_gap_penalty : Bool
  no_end_gap_penalty : Bool
  no_gaps_in_a : Bool
  no_gaps_in_b : Bool
deriving DecidableEq, Repr

/-- Modelled from the spec (section 4.1, "Scoring lookup"): case fold,
wildcard check, substitution table, then the match/mismatch fallback;
`none` models the fatal "no score defined" precondition violation. -/
def scoring_lookup (sc : scoring_t) (a b : Char) : Option Int :=
  let a' := if sc.case_sensitive then a else a.toLower
  let b' := if sc.case_sensitive then b else b.toLower
  if sc.wildcards.contains a' || sc.wildcards.contains b' then some sc.match_score
  else
    match sc.swap_table.find? (fun e => e.1.1 == a' && e.1.2 == b') with
    | some e => some e.2
    | none =>
      if sc.use_match_mismatch then
        some (if a' == b' then sc.match_score else sc.mismatch)
      else none

/-- The substitution score actually fed into the recurrence.  A missing
entry is fatal in the C code (the process exits), so runs we reason
about never hit the default. -/
def lscore (sc : scoring_t) (a b : Char) : Int :=
  (scoring_lookup sc a b).getD 0

/-- Modelled from the spec (section 4.2): the large negative sentinel the
gap matrices hold on the borders (and everywhere when a gap matrix is
suppressed), so those cells can never be chosen. -/
def SENTINEL : Int := -(2 ^ 30)

/-- Modelled from the spec (section 4.2, "DP fill (local mode)"), with a
structural fuel argument (fuel `x + y` is exact, see `fillF_fuel`).
Component 1 is `M`, component 2.1 is `GA` (gap in A, consuming a symbol
of B per column), component 2.2 is `GB` (gap in B, consuming a symbol of
A per column).  The spec states "gap in A = consume B only" and the emit
rules of section 4.5 write `B[y-1]` on `GA` columns, so `GA` steps move
in `y` and its recurrence reads the cell at `(x, y-1)`; symmetrically
for `GB`.  `M` is clamped at 0 (local mode); the borders are 0 for `M`
and sentinel for the gap matrices; a suppressed gap matrix is sentinel
everywhere. -/
def fillF (A B : List Char) (sc : scoring_t) : Nat → Nat → Nat → Int × Int × Int
  | _, 0, _ => (0, SENTINEL, SENTINEL)
  | _, _ + 1, 0 => (0, SENTINEL, SENTINEL)
  | 0, _ + 1, _ + 1 => (0, SENTINEL, SENTINEL)
  | fuel + 1, x + 1, y + 1 =>
    let s := lscore sc (A.getD x ' ') (B.getD y ' ')
    let d := fillF A B sc fuel x y
    let u := fillF A B sc fuel (x + 1) y
    let l := fillF A B sc fuel x (y + 1)
    (max 0 (max (d.1 + s) (max (d.2.1 + s) (d.2.2 + s))),
     if sc.no_gaps_in_a then SENTINEL
     else max (u.1 + sc.gap_open) (u.2.1 + sc.gap_extend),
     if sc.no_gaps_in_b then SENTINEL
     else max (l.1 + sc.gap_open) (l.2.2 + sc.gap_extend))

/-- The DP cell at `(x, y)`: `(M, GA, GB)` values. -/
def fill (A B : List Char) (sc : scoring_t) (x y : Nat) : Int × Int × Int :=
  fillF A B sc (x + y) x y

/-- The aligner session data relevant to the enumerator: the two input
sequences and the borrowed scoring configuration.  The DP matrices are
recovered functionally through `fill`. -/
structure aligner_t where
  seq_a : List Char
  seq_b : List Char
  scoring : scoring_t
deriving DecidableEq, Repr

/-- Matrix width, `len_a + 1`. -/
def aligner_t.score_width (al : aligner_t) : Nat := al.seq_a.length + 1

/-- Matrix height, `len_b + 1`. -/
def aligner_t.score_height (al : aligner_t) : Nat := al.seq_b.length + 1

/-- The DP cell of this session at `(x, y)`. -/
def aligner_t.cell (al : aligner_t) (x y : Nat) : Int × Int × Int :=
  fill al.seq_a al.seq_b al.scoring x y

/-- The flat `match_scores` array: cell `pos = y * score_width + x`. -/
def aligner_t.match_scores (al : aligner_t) (pos : Nat) : Int :=
  (al.cell (pos % al.score_width) (pos / al.score_width)).1

/-- The stored value of the plane `m` at `(x, y)`. -/
def stored (al : aligner_t) (m : Mat) (x y : Nat) : Int :=
  match m with
  | Mat.MATCH => (al.cell x y).1
  | Mat.GAP_A => (al.cell x y).2.1
  | Mat.GAP_B => (al.cell x y).2.2

/-- A traceback cursor: current matrix tag, current score, and the cell
coordinates, as threaded by reference through `alignment_reverse_move`. -/
structure tstate where
  mat : Mat
  score : Int
  x : Nat
  y : Nat
deriving DecidableEq, Repr

/-- The flat array index of the cursor's cell. -/
def tstate.pos (al : aligner_t) (st : tstate) : Nat :=
  st.y * al.score_width + st.x

/-- Modelled from the spec (section 4.3, "reverse_move"): one traceback
step.  On `M` the predecessor is the diagonal cell in whichever plane
satisfies `stored + s = curr_score`, preferring `M`, then `GA`, then
`GB`; on a gap plane the predecessor is `M + gap_open` or the same gap
plane `+ gap_extend`.  A `GA` step consumes a symbol of B (decrements
`y`), a `GB` step consumes a symbol of A (decrements `x`), matching the
emit rules of section 4.5 and the glossary ("gap in A = consume B"). -/
def alignment_reverse_move (al : aligner_t) (st : tstate) : tstate :=
  match st.mat with
  | Mat.MATCH =>
    let s := lscore al.scoring (al.seq_a.getD (st.x - 1) ' ') (al.seq_b.getD (st.y - 1) ' ')
    let d := al.cell (st.x - 1) (st.y - 1)
    if d.1 + s = st.score then ⟨Mat.MATCH, d.1, st.x - 1, st.y - 1⟩
    else if d.2.1 + s = st.score then ⟨Mat.GAP_A, d.2.1, st.x - 1, st.y - 1⟩
    else ⟨Mat.GAP_B, d.2.2, st.x - 1, st.y - 1⟩
  | Mat.GAP_A =>
    let u := al.cell st.x (st.y - 1)
    if u.1 + al.scoring.gap_open = st.score then ⟨Mat.MATCH, u.1, st.x, st.y - 1⟩
    else ⟨Mat.GAP_A, u.2.1, st.x, st.y - 1⟩
  | Mat.GAP_B =>
    let l := al.cell (st.x - 1) st.y
    if l.1 + al.scoring.gap_open = st.score then ⟨Mat.MATCH, l.1, st.x - 1, st.y⟩
    else ⟨Mat.GAP_B, l.2.2, st.x - 1, st.y⟩

/-- From the source (`sort_match_indices`, smith_waterman.c:44-59): the
comparator handed to `sort_r`.  Negative means `a` sorts before `b`:
descending `match_scores`, ties broken by ascending `pos mod
score_width` (position on `seq_a`). -/
def sort_match_indices (al : aligner_t) (a b : Nat) : Int :=
  let diff : Int := al.match_scores b - al.match_scores a
  if diff = 0 then (a % al.score_width : Int) - (b % al.score_width : Int)
  else if diff > 0 then 1 else -1

/-- The total preorder induced by the comparator (`compare a b ≤ 0`,
i.e. `a` may come no later than `b`). -/
def swRel (al : aligner_t) (a b : Nat) : Prop :=
  sort_match_indices al a b ≤ 0

instance swRel.decRel (al : aligner_t) : DecidableRel (swRel al) := by
  intro a b
  unfold swRel
  infer_instance

/-- From the source (`sw_history_t`, smith_waterman.c:22-26): the
enumerator state.  `num_of_hits` is the length of
`sorted_match_indices`. -/
structure sw_history_t where
  match_scores_mask : List Bool
  sorted_match_indices : List Nat
  next_hit : Nat
deriving DecidableEq, Repr

/-- From the source (`struct sw_aligner_t`, smith_waterman.c:29-33). -/
structure sw_aligner_t where
  aligner : aligner_t
  history : sw_history_t
deriving DecidableEq, Repr

/-- From the source (`smith_waterman_align2`, smith_waterman.c:110-135):
run the DP fill, set every bit of the consumed mask, collect every cell
with positive `match_scores` in index order, sort with the comparator,
reset the cursor.  The sort primitive (`sort_r`) is external; it is
instantiated with insertion sort, a deterministic sort agreeing with the
comparator. -/
def smith_waterman_align2 (a b : List Char) (sc : scoring_t) : sw_aligner_t :=
  let al : aligner_t := ⟨a, b, sc⟩
  let arr_size := al.score_width * al.score_height
  let hits := (List.range arr_size).filter (fun pos => 0 < al.match_scores pos)
  ⟨al, ⟨List.replicate arr_size true, List.insertionSort (swRel al) hits, 0⟩⟩

/-- Result of the probe pass of `_follow_hit`: `fuelOut` is the model
artefact for exhausted fuel (proved unreachable on session states),
`abort` is the mid-path return 0 at an already-consumed cell, `done`
carries the counted length, the terminating cursor and the consumed
mask. -/
inductive probe_res where
  | fuelOut : List Bool → probe_res
  | abort : List Bool → probe_res
  | done : Nat → tstate → List Bool → probe_res
deriving DecidableEq, Repr

/-- From the source (`_follow_hit` first loop, smith_waterman.c:160-172):
check the bit of the current cell (return 0 when clear), clear it, stop
when the score reached 0, otherwise step backwards and count. -/
def probeLoop (al : aligner_t) : Nat → List Bool → tstate → Nat → probe_res
  | 0, mask, _, _ => probe_res.fuelOut mask
  | fuel + 1, mask, st, len =>
    if mask.getD (st.pos al) false = false then probe_res.abort mask
    else
      let mask' := mask.set (st.pos al) false
      if st.score = 0 then probe_res.done len st mask'
      else probeLoop al fuel mask' (alignment_reverse_move al st) (len + 1)

/-- The `result_a` byte emitted for a cursor (smith_waterman.c:196-217):
a symbol of A on `MATCH`/`GAP_B` columns, a dash on `GAP_A` columns. -/
def colA (al : aligner_t) (st : tstate) : Char :=
  match st.mat with
  | Mat.GAP_A => '-'
  | _ => al.seq_a.getD (st.x - 1) ' '

/-- The `result_b` byte emitted for a cursor: a symbol of B on
`MATCH`/`GAP_A` columns, a dash on `GAP_B` columns. -/
def colB (al : aligner_t) (st : tstate) : Char :=
  match st.mat with
  | Mat.GAP_B => '-'
  | _ => al.seq_b.getD (st.y - 1) ' '

/-- From the source (`_follow_hit` second loop, smith_waterman.c:192-221):
re-walk the path, writing the column bytes at descending index `i`.
The list of indices actually written is returned alongside the buffers
so the write pattern itself can be reasoned about (claim C10). -/
def emitLoop (al : aligner_t) :
    Nat → tstate → Nat → List Char → List Char → List Nat →
      List Char × List Char × List Nat × tstate
  | 0, st, _, ra, rb, idxs => (ra, rb, idxs, st)
  | fuel + 1, st, i, ra, rb, idxs =>
    if st.score ≤ 0 then (ra, rb, idxs, st)
    else
      emitLoop al fuel (alignment_reverse_move al st) (i - 1)
        (ra.set i (colA al st)) (rb.set i (colB al st)) (idxs ++ [i])

/-- From the source (`alignment_t` of alignment.h as used here): the
caller-owned result record.  `result_a`/`result_b` hold the emitted
buffers including the terminating NUL byte at index `length`. -/
structure alignment_t where
  result_a : List Char
  result_b : List Char
  length : Nat
  score : Int
  pos_a : Nat
  pos_b : Nat
  len_a : Nat
  len_b : Nat
deriving DecidableEq, Repr

/-- The starting cursor of a traceback at hit `arr_index`: matrix `M`,
score `match_scores[arr_index]` (smith_waterman.c:145-156). -/
def startSt (al : aligner_t) (arr_index : Nat) : tstate :=
  ⟨Mat.MATCH, al.match_scores arr_index,
   arr_index % al.score_width, arr_index / al.score_width⟩

/-- From the source (`_follow_hit`, smith_waterman.c:138-235): probe pass,
then on success the emit pass from the recorded end cell, NUL
termination, and the metadata fields.  The loops carry fuel
`end pos + 1`, proved sufficient on session states (claim C8). -/
def _follow_hit (sw : sw_aligner_t) (arr_index : Nat) :
    Option alignment_t × List Bool :=
  let al := sw.aligner
  let st0 := startSt al arr_index
  match probeLoop al (st0.pos al + 1) sw.history.match_scores_mask st0 0 with
  | probe_res.fuelOut mask => (none, mask)
  | probe_res.abort mask => (none, mask)
  | probe_res.done length _ mask =>
    let buf := List.replicate (length + 1) ' '
    let out := emitLoop al (st0.pos al + 1) st0 (length - 1) buf buf []
    let fin := out.2.2.2
    (some ⟨out.1.set length '\x00', out.2.1.set length '\x00', length,
           al.match_scores arr_index, fin.x, fin.y,
           st0.x - fin.x, st0.y - fin.y⟩, mask)

/-- From the source (`smith_waterman_fetch` loop, smith_waterman.c:241-251):
advance the cursor over the sorted hits, skipping consumed starts and
failed follows, until a follow succeeds or the hits are exhausted.  The
successful hit index is returned alongside the alignment for the
analysis; fuel `num_of_hits - next_hit` is exact. -/
def fetchGo (al : aligner_t) (sorted : List Nat) :
    Nat → List Bool → Nat → Option (alignment_t × Nat) × List Bool × Nat
  | 0, mask, next => (none, mask, next)
  | fuel + 1, mask, next =>
    if next < sorted.length then
      let arr_index := sorted.getD next 0
      if mask.getD arr_index false then
        match _follow_hit ⟨al, mask, sorted, next + 1⟩ arr_index with
        | (some r, mask') => (some (r, arr_index), mask', next + 1)
        | (none, mask') => fetchGo al sorted fuel mask' (next + 1)
      else fetchGo al sorted fuel mask (next + 1)
    else (none, mask, next)

/-- One `fetch` call, instrumented with the hit index of a success. -/
def fetchP (sw : sw_aligner_t) : Option (alignment_t × Nat) × sw_aligner_t :=
  let out := fetchGo sw.aligner sw.history.sorted_match_indices
    (sw.history.sorted_match_indices.length - sw.history.next_hit)
    sw.history.match_scores_mask sw.history.next_hit
  (out.1, ⟨sw.aligner, ⟨out.2.1, sw.history.sorted_match_indices, out.2.2⟩⟩)

/-- From the source (`smith_waterman_fetch`, smith_waterman.c:237-254):
returns the next non-overlapping alignment, or `none` for exhaustion
(the C return 0, which leaves the caller's result record untouched). -/
def smith_waterman_fetch (sw : sw_aligner_t) : Option alignment_t × sw_aligner_t :=
  ((fetchP sw).1.map Prod.fst, (fetchP sw).2)

/-- A sequence of `n` `fetch` calls; collects the returned alignments in
order together with their hit indices. -/
def runFetchP : sw_aligner_t → Nat → List (alignment_t × Nat) × sw_aligner_t
  | sw, 0 => ([], sw)
  | sw, n + 1 =>
    let out := fetchP sw
    let rest := runFetchP out.2 n
    (out.1.toList ++ rest.1, rest.2)

/-- A sequence of `n` `fetch` calls, as the caller sees it. -/
def runFetch : sw_aligner_t → Nat → List alignment_t × sw_aligner_t
  | sw, 0 => ([], sw)
  | sw, n + 1 =>
    let out := smith_waterman_fetch sw
    let rest := runFetch out.2 n
    (out.1.toList ++ rest.1, rest.2)

/-- A live traceback cursor: in bounds, score consistent with the stored
matrix value of its plane, and strictly positive. -/
def Good (al : aligner_t) (st : tstate) : Prop :=
  st.x < al.score_width ∧ st.y < al.score_height ∧
  st.score = stored al st.mat st.x st.y ∧ 0 < st.score

/-- A terminated traceback cursor: score 0, reached in matrix `M`. -/
def Final (al : aligner_t) (st : tstate) : Prop :=
  st.mat = Mat.MATCH ∧ st.score = 0 ∧
  st.x < al.score_width ∧ st.y < al.score_height ∧
  st.score = stored al st.mat st.x st.y

instance Good.dec (al : aligner_t) (st : tstate) : Decidable (Good al st) := by
  unfold Good
  infer_instance

instance Final.dec (al : aligner_t) (st : tstate) : Decidable (Final al st) := by
  unfold Final
  infer_instance
/-- The traceback path from a cursor, with fuel: all visited cursors in
order, ending with the terminating (score 0) cursor. -/
def traceF (al : aligner_t) : Nat → tstate → List tstate
  | 0, st => [st]
  | fuel + 1, st =>
    if st.score = 0 then [st]
    else st :: traceF al fuel (alignment_reverse_move al st)

/-- The traceback path with its canonical (sufficient) fuel. -/
def trace (al : aligner_t) (st : tstate) : List tstate :=
  traceF al (st.pos al + 1) st

/-- The flat cell indices the traceback from hit `arr_index` visits
(including the terminating score-0 cell, whose bit the probe pass also
clears). -/
def hitCells (al : aligner_t) (arr_index : Nat) : List Nat :=
  (trace al (startSt al arr_index)).map (tstate.pos al)

/-- The terminating cursor of the traceback from `st`. -/
def finalSt (al : aligner_t) (st : tstate) : tstate :=
  (trace al st).getLastD st
/-- Clearing a list of cells in the consumed mask, in order. -/
def maskClear (mask : List Bool) (cs : List Nat) : List Bool :=
  cs.foldl (fun m c => m.set c false) mask
/-- The `result_a` string of the traceback from `st` (leftmost column
first): the emitted bytes of all positive-score cursors, reversed. -/
def stringA (al : aligner_t) (st : tstate) : List Char :=
  ((trace al st).dropLast.map (colA al)).reverse

/-- The `result_b` string of the traceback from `st`. -/
def stringB (al : aligner_t) (st : tstate) : List Char :=
  ((trace al st).dropLast.map (colB al)).reverse
/-- The alignment record a successful follow of hit `arr_index`
produces (closed form). -/
def followRes (al : aligner_t) (arr_index : Nat) : alignment_t :=
  ⟨stringA al (startSt al arr_index) ++ ['\x00'],
   stringB al (startSt al arr_index) ++ ['\x00'],
   (trace al (startSt al arr_index)).length - 1,
   al.match_scores arr_index,
   (finalSt al (startSt al arr_index)).x,
   (finalSt al (startSt al arr_index)).y,
   (startSt al arr_index).x - (finalSt al (startSt al arr_index)).x,
   (startSt al arr_index).y - (finalSt al (startSt al arr_index)).y⟩
/-- Running gap state while scanning an alignment's columns from left
to right. -/
inductive GapSt where
  | noGap : GapSt
  | inA : GapSt
  | inB : GapSt
deriving DecidableEq, Repr

/-- Stated from the spec's wording of score preservation: the score
contribution of one column, given the gap state of the previous column
(`lookup` score for symbol columns, `gap_open` opening a gap run,
`gap_extend` continuing one). -/
def colStep (sc : scoring_t) (a b : Char) (g : GapSt) : Int × GapSt :=
  if a = '-' then
    ((if g = GapSt.inA then sc.gap_extend else sc.gap_open), GapSt.inA)
  else if b = '-' then
    ((if g = GapSt.inB then sc.gap_extend else sc.gap_open), GapSt.inB)
  else (lscore sc a b, GapSt.noGap)

/-- Left-to-right recomputation of an alignment's score from its two
emitted rows, threading the gap state. -/
def recompute_go (sc : scoring_t) : List Char → List Char → GapSt → Int × GapSt
  | a :: as, b :: bs, g =>
    (((colStep sc a b g).1 + (recompute_go sc as bs (colStep sc a b g).2).1),
     (recompute_go sc as bs (colStep sc a b g).2).2)
  | _, _, g => (0, g)

/-- The recomputed score of an emitted row pair. -/
def recompute_score (sc : scoring_t) (ra rb : List Char) : Int :=
  (recompute_go sc ra rb GapSt.noGap).1

/-- The gap state a cursor's column leaves behind. -/
def matGap : Mat → GapSt
  | Mat.MATCH => GapSt.noGap
  | Mat.GAP_A => GapSt.inA
  | Mat.GAP_B => GapSt.inB
/-- Deleting every dash byte from an emitted row (the round-trip
direction of claim C4). -/
def strip_dashes (l : List Char) : List Char :=
  l.filter (fun c => decide (c ≠ '-'))
/-- A small session: two equal one-symbol sequences. -/
def sc_ex : scoring_t := ⟨2, -2, -2, -1, true, true, [], [], false, false, false, false⟩

def al_ex : aligner_t := ⟨['A'], ['A'], sc_ex⟩

/-- A scoring configuration whose second-best hit shares a mid-path cell
with the best hit while its own start and tail cells stay unconsumed. -/
def sc7 : scoring_t :=
  ⟨0, -9, -1, -1, true, true,
   [(('a', 'd'), 4), (('b', 'd'), 2), (('c', 'f'), 4), (('c', 'e'), 4),
    (('a', 'e'), -9), (('b', 'e'), -9)],
   [], false, false, false, false⟩

def al7 : aligner_t := ⟨['a', 'b', 'c'], ['d', 'e', 'f'], sc7⟩

/-- The session on `al7` after one successful fetch (which consumes the
cells of the best hit, among them a mid-path cell of the next hit). -/
def sw7 : sw_aligner_t :=
  (runFetchP (smith_waterman_align2 ['a', 'b', 'c'] ['d', 'e', 'f'] sc7) 1).2

/-
 Part 2: DP fill equations and the traceback step lemma.
-/

theorem fillF_fuel (A B : List Char) (sc : scoring_t) :
    ∀ (fuel x y : Nat), x + y ≤ fuel → fillF A B sc fuel x y = fill A B sc x y := by
  intro fuel
  induction fuel using Nat.strong_induction_on with
  | _ fuel ih =>
    intro x y hxy
    match fuel, x, y with
    | fuel, 0, y => simp [fill, fillF]
    | fuel, x + 1, 0 => simp [fill, fillF]
    | fuel + 1, x + 1, y + 1 =>
      have hL : fillF A B sc (fuel + 1) (x + 1) (y + 1) =
          (max 0 (max ((fillF A B sc fuel x y).1 + lscore sc (A.getD x ' ') (B.getD y ' '))
             (max ((fillF A B sc fuel x y).2.1 + lscore sc (A.getD x ' ') (B.getD y ' '))
                  ((fillF A B sc fuel x y).2.2 + lscore sc (A.getD x ' ') (B.getD y ' ')))),
           if sc.no_gaps_in_a then SENTINEL
           else max ((fillF A B sc fuel (x + 1) y).1 + sc.gap_open)
                    ((fillF A B sc fuel (x + 1) y).2.1 + sc.gap_extend),
           if sc.no_gaps_in_b then SENTINEL
           else max ((fillF A B sc fuel x (y + 1)).1 + sc.gap_open)
                    ((fillF A B sc fuel x (y + 1)).2.2 + sc.gap_extend)) := rfl
      have hg : x + 1 + (y + 1) = (x + y + 1) + 1 := by omega
      have hR : fill A B sc (x + 1) (y + 1) =
          (max 0 (max ((fillF A B sc (x + y + 1) x y).1 + lscore sc (A.getD x ' ') (B.getD y ' '))
             (max ((fillF A B sc (x + y + 1) x y).2.1 + lscore sc (A.getD x ' ') (B.getD y ' '))
                  ((fillF A B sc (x + y + 1) x y).2.2 + lscore sc (A.getD x ' ') (B.getD y ' ')))),
           if sc.no_gaps_in_a then SENTINEL
           else max ((fillF A B sc (x + y + 1) (x + 1) y).1 + sc.gap_open)
                    ((fillF A B sc (x + y + 1) (x + 1) y).2.1 + sc.gap_extend),
           if sc.no_gaps_in_b then SENTINEL
           else max ((fillF A B sc (x + y + 1) x (y + 1)).1 + sc.gap_open)
                    ((fillF A B sc (x + y + 1) x (y + 1)).2.2 + sc.gap_extend)) := by
        unfold fill
        rw [hg]
        rfl
      rw [hL, hR,
          ih fuel (by omega) x y (by omega),
          ih fuel (by omega) (x + 1) y (by omega),
          ih fuel (by omega) x (y + 1) (by omega),
          ih (x + y + 1) (by omega) x y (by omega),
          ih (x + y + 1) (by omega) (x + 1) y (by omega),
          ih (x + y + 1) (by omega) x (y + 1) (by omega)]

theorem cell_zero_left (al : aligner_t) (y : Nat) :
    al.cell 0 y = (0, SENTINEL, SENTINEL) := by
  show fill _ _ _ 0 y = _
  unfold fill
  simp [fillF]

theorem cell_zero_right (al : aligner_t) (x : Nat) :
    al.cell x 0 = (0, SENTINEL, SENTINEL) := by
  show fill _ _ _ x 0 = _
  unfold fill
  match x with
  | 0 => simp [fillF]
  | x + 1 => simp [fillF]

theorem cell_succ (al : aligner_t) (x y : Nat) :
    al.cell (x + 1) (y + 1) =
      (max 0 (max ((al.cell x y).1 + lscore al.scoring (al.seq_a.getD x ' ') (al.seq_b.getD y ' '))
         (max ((al.cell x y).2.1 + lscore al.scoring (al.seq_a.getD x ' ') (al.seq_b.getD y ' '))
              ((al.cell x y).2.2 + lscore al.scoring (al.seq_a.getD x ' ') (al.seq_b.getD y ' ')))),
       if al.scoring.no_gaps_in_a then SENTINEL
       else max ((al.cell (x + 1) y).1 + al.scoring.gap_open)
                ((al.cell (x + 1) y).2.1 + al.scoring.gap_extend),
       if al.scoring.no_gaps_in_b then SENTINEL
       else max ((al.cell x (y + 1)).1 + al.scoring.gap_open)
                ((al.cell x (y + 1)).2.2 + al.scoring.gap_extend)) := by
  show fill _ _ _ (x + 1) (y + 1) = _
  unfold fill
  have hg : x + 1 + (y + 1) = (x + y + 1) + 1 := by omega
  rw [hg]
  show (max 0 (max ((fillF _ _ _ (x + y + 1) x y).1 + _) _), _, _) = _
  rw [fillF_fuel _ _ _ (x + y + 1) x y (by omega),
      fillF_fuel _ _ _ (x + y + 1) (x + 1) y (by omega),
      fillF_fuel _ _ _ (x + y + 1) x (y + 1) (by omega)]
  rfl

theorem SENTINEL_neg : SENTINEL < 0 := by decide

theorem mval_nonneg (al : aligner_t) (x y : Nat) : 0 ≤ (al.cell x y).1 := by
  match x, y with
  | 0, y => rw [cell_zero_left]
  | x + 1, 0 => rw [cell_zero_right]
  | x + 1, y + 1 =>
    rw [cell_succ]
    exact le_max_left _ _

theorem mval_pos_bounds (al : aligner_t) (x y : Nat) (h : 0 < (al.cell x y).1) :
    1 ≤ x ∧ 1 ≤ y := by
  match x, y with
  | 0, y => rw [cell_zero_left] at h; exact absurd h (by norm_num)
  | x + 1, 0 => rw [cell_zero_right] at h; exact absurd h (by norm_num)
  | x + 1, y + 1 => exact ⟨by omega, by omega⟩

theorem gaval_pos_bounds (al : aligner_t) (x y : Nat) (h : 0 < (al.cell x y).2.1) :
    1 ≤ x ∧ 1 ≤ y := by
  have hs := SENTINEL_neg
  match x, y with
  | 0, y => rw [cell_zero_left] at h; simp at h; omega
  | x + 1, 0 => rw [cell_zero_right] at h; simp at h; omega
  | x + 1, y + 1 => exact ⟨by omega, by omega⟩

theorem gbval_pos_bounds (al : aligner_t) (x y : Nat) (h : 0 < (al.cell x y).2.2) :
    1 ≤ x ∧ 1 ≤ y := by
  have hs := SENTINEL_neg
  match x, y with
  | 0, y => rw [cell_zero_left] at h; simp at h; omega
  | x + 1, 0 => rw [cell_zero_right] at h; simp at h; omega
  | x + 1, y + 1 => exact ⟨by omega, by omega⟩


theorem max_pos_right {w m : Int} (h : m = max 0 w) (hm : 0 < m) : m = w := by
  rcases max_choice 0 w with h1 | h1
  · omega
  · omega

theorem max3_attain {a b c m : Int} (h : m = max a (max b c)) :
    m = a ∨ m = b ∨ m = c := by
  rcases max_choice a (max b c) with h1 | h1
  · left; omega
  · rcases max_choice b c with h2 | h2
    · right; left; omega
    · right; right; omega

theorem max2_attain {a b m : Int} (h : m = max a b) : m = a ∨ m = b := by
  rcases max_choice a b with h1 | h1 <;> omega

theorem good_mk (al : aligner_t) (m : Mat) (sc : Int) (x y : Nat)
    (hx : x < al.score_width) (hy : y < al.score_height)
    (hst : sc = stored al m x y) (hp : 0 < sc) :
    Good al ⟨m, sc, x, y⟩ := ⟨hx, hy, hst, hp⟩

theorem final_mk (al : aligner_t) (sc : Int) (x y : Nat)
    (hx : x < al.score_width) (hy : y < al.score_height)
    (hst : sc = stored al Mat.MATCH x y) (hp : sc = 0) :
    Final al ⟨Mat.MATCH, sc, x, y⟩ := ⟨rfl, hp, hx, hy, hst⟩

theorem step_match (al : aligner_t) (st : tstate) (h : Good al st)
    (hm : st.mat = Mat.MATCH) :
    (Good al (alignment_reverse_move al st) ∨ Final al (alignment_reverse_move al st)) ∧
    (alignment_reverse_move al st).x = st.x - 1 ∧
    (alignment_reverse_move al st).y = st.y - 1 ∧ 1 ≤ st.x ∧ 1 ≤ st.y ∧
    st.score = (alignment_reverse_move al st).score +
      lscore al.scoring (al.seq_a.getD (st.x - 1) ' ') (al.seq_b.getD (st.y - 1) ' ') := by
  obtain ⟨hx, hy, hsc, hpos⟩ := h
  have hms : st.score = (al.cell st.x st.y).1 := by rw [hsc, hm]; rfl
  have hb := mval_pos_bounds al st.x st.y (by omega)
  set s := lscore al.scoring (al.seq_a.getD (st.x - 1) ' ') (al.seq_b.getD (st.y - 1) ' ') with hs
  set d := al.cell (st.x - 1) (st.y - 1) with hd
  have hcs : st.score = max 0 (max (d.1 + s) (max (d.2.1 + s) (d.2.2 + s))) := by
    have he : st.x = (st.x - 1) + 1 := by omega
    have he2 : st.y = (st.y - 1) + 1 := by omega
    rw [hms, he, he2, cell_succ]
  have hattain := max3_attain (max_pos_right hcs hpos)
  have hle1 : d.1 + s ≤ st.score := by
    rw [hcs]
    exact le_trans (le_max_left _ _) (le_max_right _ _)
  have hnn : (0 : Int) ≤ d.1 := by rw [hd]; exact mval_nonneg al _ _
  by_cases h1 : d.1 + s = st.score
  · have hrm : alignment_reverse_move al st =
        ⟨Mat.MATCH, d.1, st.x - 1, st.y - 1⟩ := by
      simp only [alignment_reverse_move, hm]
      rw [← hs, ← hd, if_pos h1]
    rw [hrm]
    refine ⟨?_, rfl, rfl, by omega, by omega, by show st.score = d.1 + s; omega⟩
    rcases lt_or_eq_of_le hnn with hlt | heq
    · exact Or.inl (good_mk al _ _ _ _ (by omega) (by omega)
        (by unfold stored; rw [← hd]) hlt)
    · exact Or.inr (final_mk al _ _ _ (by omega) (by omega)
        (by unfold stored; rw [← hd]) heq.symm)
  · by_cases h2 : d.2.1 + s = st.score
    · have hrm : alignment_reverse_move al st =
          ⟨Mat.GAP_A, d.2.1, st.x - 1, st.y - 1⟩ := by
        simp only [alignment_reverse_move, hm]
        rw [← hs, ← hd, if_neg h1, if_pos h2]
      rw [hrm]
      have hga_pos : 0 < d.2.1 := by omega
      refine ⟨Or.inl (good_mk al _ _ _ _ (by omega) (by omega)
          (by unfold stored; rw [← hd]) hga_pos),
        rfl, rfl, by omega, by omega, by show st.score = d.2.1 + s; omega⟩
    · have h3 : d.2.2 + s = st.score := by
        rcases hattain with ha | ha | ha
        · exact absurd ha.symm h1
        · exact absurd ha.symm h2
        · omega
      have hrm : alignment_reverse_move al st =
          ⟨Mat.GAP_B, d.2.2, st.x - 1, st.y - 1⟩ := by
        simp only [alignment_reverse_move, hm]
        rw [← hs, ← hd, if_neg h1, if_neg h2]
      rw [hrm]
      have hgb_pos : 0 < d.2.2 := by omega
      refine ⟨Or.inl (good_mk al _ _ _ _ (by omega) (by omega)
          (by unfold stored; rw [← hd]) hgb_pos),
        rfl, rfl, by omega, by omega, by show st.score = d.2.2 + s; omega⟩

theorem step_gap_a (al : aligner_t) (st : tstate) (h : Good al st)
    (hgo : al.scoring.gap_open ≤ 0) (hge : al.scoring.gap_extend ≤ 0)
    (hm : st.mat = Mat.GAP_A) :
    Good al (alignment_reverse_move al st) ∧
    (alignment_reverse_move al st).x = st.x ∧
    (alignment_reverse_move al st).y = st.y - 1 ∧ 1 ≤ st.x ∧ 1 ≤ st.y ∧
    ((alignment_reverse_move al st).mat = Mat.MATCH ∧
       st.score = (alignment_reverse_move al st).score + al.scoring.gap_open ∨
     (alignment_reverse_move al st).mat = Mat.GAP_A ∧
       st.score = (alignment_reverse_move al st).score + al.scoring.gap_extend) := by
  obtain ⟨hx, hy, hsc, hpos⟩ := h
  have hms : st.score = (al.cell st.x st.y).2.1 := by rw [hsc, hm]; rfl
  have hb := gaval_pos_bounds al st.x st.y (by omega)
  have he : st.x = (st.x - 1) + 1 := by omega
  have he2 : st.y = (st.y - 1) + 1 := by omega
  have hcell : (al.cell st.x st.y).2.1 =
      if al.scoring.no_gaps_in_a then SENTINEL
      else max ((al.cell st.x (st.y - 1)).1 + al.scoring.gap_open)
               ((al.cell st.x (st.y - 1)).2.1 + al.scoring.gap_extend) := by
    conv_lhs => rw [he, he2, cell_succ]
    rw [← he]
  set u := al.cell st.x (st.y - 1) with hu
  rcases hng : al.scoring.no_gaps_in_a with _ | _
  · rw [hng, if_neg (by simp)] at hcell
    have hval : st.score = max (u.1 + al.scoring.gap_open) (u.2.1 + al.scoring.gap_extend) := by
      rw [hms, hcell]
    have hat := max2_attain hval
    by_cases h1 : u.1 + al.scoring.gap_open = st.score
    · have hrm : alignment_reverse_move al st = ⟨Mat.MATCH, u.1, st.x, st.y - 1⟩ := by
        simp only [alignment_reverse_move, hm]
        rw [← hu, if_pos h1]
      rw [hrm]
      have hp1 : 0 < u.1 := by omega
      exact ⟨good_mk al _ _ _ _ (by omega) (by omega) (by unfold stored; rw [← hu]) hp1,
        rfl, rfl, by omega, by omega,
        Or.inl ⟨rfl, by show st.score = u.1 + al.scoring.gap_open; omega⟩⟩
    · have h2 : u.2.1 + al.scoring.gap_extend = st.score := by
        rcases hat with ha | ha
        · exact absurd ha.symm h1
        · omega
      have hrm : alignment_reverse_move al st = ⟨Mat.GAP_A, u.2.1, st.x, st.y - 1⟩ := by
        simp only [alignment_reverse_move, hm]
        rw [← hu, if_neg h1]
      rw [hrm]
      have hp1 : 0 < u.2.1 := by omega
      exact ⟨good_mk al _ _ _ _ (by omega) (by omega) (by unfold stored; rw [← hu]) hp1,
        rfl, rfl, by omega, by omega,
        Or.inr ⟨rfl, by show st.score = u.2.1 + al.scoring.gap_extend; omega⟩⟩
  · exfalso
    rw [hng, if_pos rfl] at hcell
    have := SENTINEL_neg
    omega

theorem step_gap_b (al : aligner_t) (st : tstate) (h : Good al st)
    (hgo : al.scoring.gap_open ≤ 0) (hge : al.scoring.gap_extend ≤ 0)
    (hm : st.mat = Mat.GAP_B) :
    Good al (alignment_reverse_move al st) ∧
    (alignment_reverse_move al st).x = st.x - 1 ∧
    (alignment_reverse_move al st).y = st.y ∧ 1 ≤ st.x ∧ 1 ≤ st.y ∧
    ((alignment_reverse_move al st).mat = Mat.MATCH ∧
       st.score = (alignment_reverse_move al st).score + al.scoring.gap_open ∨
     (alignment_reverse_move al st).mat = Mat.GAP_B ∧
       st.score = (alignment_reverse_move al st).score + al.scoring.gap_extend) := by
  obtain ⟨hx, hy, hsc, hpos⟩ := h
  have hms : st.score = (al.cell st.x st.y).2.2 := by rw [hsc, hm]; rfl
  have hb := gbval_pos_bounds al st.x st.y (by omega)
  have he : st.x = (st.x - 1) + 1 := by omega
  have he2 : st.y = (st.y - 1) + 1 := by omega
  have hcell : (al.cell st.x st.y).2.2 =
      if al.scoring.no_gaps_in_b then SENTINEL
      else max ((al.cell (st.x - 1) st.y).1 + al.scoring.gap_open)
               ((al.cell (st.x - 1) st.y).2.2 + al.scoring.gap_extend) := by
    conv_lhs => rw [he, he2, cell_succ]
    rw [← he2]
  set l := al.cell (st.x - 1) st.y with hl
  rcases hng : al.scoring.no_gaps_in_b with _ | _
  · rw [hng, if_neg (by simp)] at hcell
    have hval : st.score = max (l.1 + al.scoring.gap_open) (l.2.2 + al.scoring.gap_extend) := by
      rw [hms, hcell]
    have hat := max2_attain hval
    by_cases h1 : l.1 + al.scoring.gap_open = st.score
    · have hrm : alignment_reverse_move al st = ⟨Mat.MATCH, l.1, st.x - 1, st.y⟩ := by
        simp only [alignment_reverse_move, hm]
        rw [← hl, if_pos h1]
      rw [hrm]
      have hp1 : 0 < l.1 := by omega
      exact ⟨good_mk al _ _ _ _ (by omega) (by omega) (by unfold stored; rw [← hl]) hp1,
        rfl, rfl, by omega, by omega,
        Or.inl ⟨rfl, by show st.score = l.1 + al.scoring.gap_open; omega⟩⟩
    · have h2 : l.2.2 + al.scoring.gap_extend = st.score := by
        rcases hat with ha | ha
        · exact absurd ha.symm h1
        · omega
      have hrm : alignment_reverse_move al st = ⟨Mat.GAP_B, l.2.2, st.x - 1, st.y⟩ := by
        simp only [alignment_reverse_move, hm]
        rw [← hl, if_neg h1]
      rw [hrm]
      have hp1 : 0 < l.2.2 := by omega
      exact ⟨good_mk al _ _ _ _ (by omega) (by omega) (by unfold stored; rw [← hl]) hp1,
        rfl, rfl, by omega, by omega,
        Or.inr ⟨rfl, by show st.score = l.2.2 + al.scoring.gap_extend; omega⟩⟩
  · exfalso
    rw [hng, if_pos rfl] at hcell
    have := SENTINEL_neg
    omega

theorem score_width_pos (al : aligner_t) : 0 < al.score_width :=
  Nat.succ_pos _

/-- Master step lemma: from a live cursor the traceback step yields a
live or terminated cursor, at a strictly smaller flat index and weakly
smaller coordinates. -/
theorem step_main (al : aligner_t)
    (hgo : al.scoring.gap_open ≤ 0) (hge : al.scoring.gap_extend ≤ 0)
    (st : tstate) (h : Good al st) :
    (Good al (alignment_reverse_move al st) ∨ Final al (alignment_reverse_move al st)) ∧
    (alignment_reverse_move al st).pos al < st.pos al ∧
    (alignment_reverse_move al st).x ≤ st.x ∧
    (alignment_reverse_move al st).y ≤ st.y := by
  have hW := score_width_pos al
  rcases hm : st.mat with _ | _ | _
  · obtain ⟨hgf, hx', hy', hx1, hy1, _⟩ := step_match al st h hm
    refine ⟨hgf, ?_, by omega, by omega⟩
    unfold tstate.pos
    rw [hx', hy']
    have : (st.y - 1) * al.score_width < st.y * al.score_width :=
      (Nat.mul_lt_mul_right hW).mpr (by omega)
    omega
  · obtain ⟨hgf, hx', hy', hx1, hy1, _⟩ := step_gap_a al st h hgo hge hm
    refine ⟨Or.inl hgf, ?_, by omega, by omega⟩
    unfold tstate.pos
    rw [hx', hy']
    have : (st.y - 1) * al.score_width < st.y * al.score_width :=
      (Nat.mul_lt_mul_right hW).mpr (by omega)
    omega
  · obtain ⟨hgf, hx', hy', hx1, hy1, _⟩ := step_gap_b al st h hgo hge hm
    refine ⟨Or.inl hgf, ?_, by omega, by omega⟩
    unfold tstate.pos
    rw [hx', hy']
    omega

/-
 Part 3: the traceback path as a list of cursors.
-/


theorem traceF_final (al : aligner_t) (fuel : Nat) (st : tstate)
    (h : st.score = 0) : traceF al fuel st = [st] := by
  cases fuel with
  | zero => rfl
  | succ fuel => simp [traceF, h]

theorem traceF_cons (al : aligner_t) (fuel : Nat) (st : tstate)
    (h : ¬ st.score = 0) :
    traceF al (fuel + 1) st = st :: traceF al fuel (alignment_reverse_move al st) := by
  simp [traceF, h]

theorem traceF_ne_nil (al : aligner_t) : ∀ (fuel : Nat) (st : tstate),
    traceF al fuel st ≠ [] := by
  intro fuel st
  cases fuel with
  | zero => simp [traceF]
  | succ fuel =>
    by_cases h : st.score = 0
    · rw [traceF_final al _ st h]
      simp
    · rw [traceF_cons al fuel st h]
      simp

theorem trace_ne_nil (al : aligner_t) (st : tstate) : trace al st ≠ [] :=
  traceF_ne_nil al _ st

theorem getLastD_cons_congr {α : Type} (x : α) (l : List α) (a b : α) :
    (x :: l).getLastD a = (x :: l).getLastD b := by
  rw [List.getLastD_cons, List.getLastD_cons]

/-- Induction along the traceback path. -/
theorem trace_rec (al : aligner_t)
    (hgo : al.scoring.gap_open ≤ 0) (hge : al.scoring.gap_extend ≤ 0)
    (P : tstate → Prop)
    (hfin : ∀ st, Final al st → P st)
    (hstep : ∀ st, Good al st →
      (Good al (alignment_reverse_move al st) ∨ Final al (alignment_reverse_move al st)) →
      P (alignment_reverse_move al st) → P st) :
    ∀ st, Good al st ∨ Final al st → P st := by
  have key : ∀ n st, st.pos al ≤ n → Good al st ∨ Final al st → P st := by
    intro n
    induction n using Nat.strong_induction_on with
    | _ n ih =>
      intro st hpos hgf
      rcases hgf with hg | hf
      · obtain ⟨hgf', hlt, _, _⟩ := step_main al hgo hge st hg
        have hp' : P (alignment_reverse_move al st) := by
          rcases n with _ | n
          · omega
          · exact ih ((alignment_reverse_move al st).pos al)
              (by omega) _ le_rfl hgf'
        exact hstep st hg hgf' hp'
      · exact hfin st hf
  intro st
  exact key (st.pos al) st le_rfl

theorem traceF_eq_trace (al : aligner_t)
    (hgo : al.scoring.gap_open ≤ 0) (hge : al.scoring.gap_extend ≤ 0) :
    ∀ st, Good al st ∨ Final al st →
      ∀ fuel, st.pos al + 1 ≤ fuel → traceF al fuel st = trace al st := by
  refine trace_rec al hgo hge _ ?_ ?_
  · intro st hf fuel _
    rw [traceF_final al fuel st hf.2.1]
    unfold trace
    rw [traceF_final al _ st hf.2.1]
  · intro st hg hgf ih fuel hfuel
    have hne : ¬ st.score = 0 := by
      have := hg.2.2.2
      omega
    obtain ⟨_, hlt, _, _⟩ := step_main al hgo hge st hg
    rcases fuel with _ | fuel
    · omega
    · rw [traceF_cons al fuel st hne, ih fuel (by omega)]
      unfold trace
      rw [traceF_cons al (st.pos al) st hne, ih (st.pos al) (by omega)]
      rfl

theorem trace_cons (al : aligner_t)
    (hgo : al.scoring.gap_open ≤ 0) (hge : al.scoring.gap_extend ≤ 0)
    (st : tstate) (hg : Good al st) :
    trace al st = st :: trace al (alignment_reverse_move al st) := by
  have hne : ¬ st.score = 0 := by
    have := hg.2.2.2
    omega
  obtain ⟨hgf, hlt, _, _⟩ := step_main al hgo hge st hg
  unfold trace
  rw [traceF_cons al (st.pos al) st hne,
      traceF_eq_trace al hgo hge _ hgf (st.pos al) (by omega)]
  rfl

theorem trace_of_final (al : aligner_t) (st : tstate) (hf : Final al st) :
    trace al st = [st] :=
  traceF_final al _ st hf.2.1

/-- Every cursor on the traceback path is live or terminated, with
weakly smaller coordinates and flat index than the start. -/
theorem trace_mem (al : aligner_t)
    (hgo : al.scoring.gap_open ≤ 0) (hge : al.scoring.gap_extend ≤ 0) :
    ∀ st, Good al st ∨ Final al st →
      ∀ v ∈ trace al st, (Good al v ∨ Final al v) ∧
        v.pos al ≤ st.pos al ∧ v.x ≤ st.x ∧ v.y ≤ st.y := by
  refine trace_rec al hgo hge _ ?_ ?_
  · intro st hf v hv
    rw [trace_of_final al st hf] at hv
    simp at hv
    subst hv
    exact ⟨Or.inr hf, le_rfl, le_rfl, le_rfl⟩
  · intro st hg hgf ih v hv
    rw [trace_cons al hgo hge st hg] at hv
    obtain ⟨_, hlt, hxle, hyle⟩ := step_main al hgo hge st hg
    rcases List.mem_cons.mp hv with hv | hv
    · subst hv
      exact ⟨Or.inl hg, le_rfl, le_rfl, le_rfl⟩
    · obtain ⟨h1, h2, h3, h4⟩ := ih v hv
      exact ⟨h1, by omega, by omega, by omega⟩

/-- The flat indices strictly decrease along the traceback path. -/
theorem trace_pairwise (al : aligner_t)
    (hgo : al.scoring.gap_open ≤ 0) (hge : al.scoring.gap_extend ≤ 0) :
    ∀ st, Good al st ∨ Final al st →
      (trace al st).Pairwise (fun u v => v.pos al < u.pos al) := by
  refine trace_rec al hgo hge _ ?_ ?_
  · intro st hf
    rw [trace_of_final al st hf]
    simp
  · intro st hg hgf ih
    rw [trace_cons al hgo hge st hg]
    obtain ⟨_, hlt, _, _⟩ := step_main al hgo hge st hg
    refine List.Pairwise.cons ?_ ih
    intro v hv
    have := (trace_mem al hgo hge _ hgf v hv).2.1
    omega

/-- The last cursor of the traceback path is terminated: score 0,
reached in matrix `M`. -/
theorem trace_last_final (al : aligner_t)
    (hgo : al.scoring.gap_open ≤ 0) (hge : al.scoring.gap_extend ≤ 0) :
    ∀ st, Good al st ∨ Final al st → Final al (finalSt al st) := by
  refine trace_rec al hgo hge _ ?_ ?_
  · intro st hf
    unfold finalSt
    rw [trace_of_final al st hf]
    exact hf
  · intro st hg hgf ih
    unfold finalSt
    rw [trace_cons al hgo hge st hg, List.getLastD_cons]
    unfold finalSt at ih
    obtain ⟨z, zs, hz⟩ : ∃ z zs, trace al (alignment_reverse_move al st) = z :: zs := by
      rcases hcons : trace al (alignment_reverse_move al st) with _ | ⟨z, zs⟩
      · exact absurd hcons (trace_ne_nil al _)
      · exact ⟨z, zs, rfl⟩
    rw [hz] at ih ⊢
    rw [getLastD_cons_congr z zs st (alignment_reverse_move al st)]
    exact ih

/-
 Part 4: probe pass characterisation.
-/


theorem getD_set_ne (m : List Bool) (i j : Nat) (v : Bool) (h : i ≠ j) :
    (m.set i v).getD j false = m.getD j false := by
  rw [List.getD_eq_getElem?_getD, List.getD_eq_getElem?_getD, List.getElem?_set_ne h]

theorem getD_set_false_self (m : List Bool) (i : Nat) :
    (m.set i false).getD i false = false := by
  by_cases h : i < m.length
  · rw [List.getD_eq_getElem?_getD, List.getElem?_set_self h]
    rfl
  · rw [List.set_eq_of_length_le (by omega), List.getD_eq_getElem?_getD,
        List.getElem?_eq_none (by omega)]
    rfl

theorem getD_set_false_preserve (m : List Bool) (i j : Nat)
    (h : m.getD j false = false) : (m.set i false).getD j false = false := by
  by_cases hij : i = j
  · subst hij
    exact getD_set_false_self m i
  · rw [getD_set_ne m i j false hij]
    exact h

theorem maskClear_cons (mask : List Bool) (c : Nat) (cs : List Nat) :
    maskClear mask (c :: cs) = maskClear (mask.set c false) cs := rfl

theorem maskClear_mono (cs : List Nat) : ∀ (mask : List Bool) (i : Nat),
    mask.getD i false = false → (maskClear mask cs).getD i false = false := by
  induction cs with
  | nil => intro mask i h; exact h
  | cons c cs ih =>
    intro mask i h
    rw [maskClear_cons]
    exact ih _ i (getD_set_false_preserve mask c i h)

theorem maskClear_mem (cs : List Nat) : ∀ (mask : List Bool) (c : Nat),
    c ∈ cs → (maskClear mask cs).getD c false = false := by
  induction cs with
  | nil => intro mask c h; simp at h
  | cons c' cs ih =>
    intro mask c h
    rw [maskClear_cons]
    rcases List.mem_cons.mp h with h | h
    · subst h
      exact maskClear_mono cs _ c (getD_set_false_self mask c)
    · exact ih _ c h

theorem maskClear_not_mem (cs : List Nat) : ∀ (mask : List Bool) (c : Nat),
    c ∉ cs → (maskClear mask cs).getD c false = mask.getD c false := by
  induction cs with
  | nil => intro mask c _; rfl
  | cons c' cs ih =>
    intro mask c h
    have h1 : c ∉ cs := fun hc => h (List.mem_cons_of_mem _ hc)
    have h2 : c' ≠ c := by
      intro hc
      rw [hc] at h
      exact h (List.mem_cons_self _ _)
    rw [maskClear_cons, ih _ c h1, getD_set_ne _ _ _ _ h2]

theorem maskClear_length (cs : List Nat) : ∀ (mask : List Bool),
    (maskClear mask cs).length = mask.length := by
  induction cs with
  | nil => intro mask; rfl
  | cons c cs ih =>
    intro mask
    rw [maskClear_cons, ih]
    simp

theorem finalSt_of_final (al : aligner_t) (st : tstate) (hf : Final al st) :
    finalSt al st = st := by
  unfold finalSt
  rw [trace_of_final al st hf]
  rfl

theorem finalSt_cons (al : aligner_t)
    (hgo : al.scoring.gap_open ≤ 0) (hge : al.scoring.gap_extend ≤ 0)
    (st : tstate) (hg : Good al st) :
    finalSt al st = finalSt al (alignment_reverse_move al st) := by
  unfold finalSt
  rw [trace_cons al hgo hge st hg, List.getLastD_cons]
  obtain ⟨z, zs, hz⟩ : ∃ z zs,
      trace al (alignment_reverse_move al st) = z :: zs := by
    rcases hcons : trace al (alignment_reverse_move al st) with _ | ⟨z, zs⟩
    · exact absurd hcons (trace_ne_nil al _)
    · exact ⟨z, zs, rfl⟩
  rw [hz, getLastD_cons_congr z zs st (alignment_reverse_move al st)]

theorem trace_length_le (al : aligner_t)
    (hgo : al.scoring.gap_open ≤ 0) (hge : al.scoring.gap_extend ≤ 0) :
    ∀ st, Good al st ∨ Final al st →
      (trace al st).length ≤ st.pos al + 1 := by
  refine trace_rec al hgo hge _ ?_ ?_
  · intro st hf
    rw [trace_of_final al st hf]
    simp
  · intro st hg hgf ih
    rw [trace_cons al hgo hge st hg]
    obtain ⟨_, hlt, _, _⟩ := step_main al hgo hge st hg
    simp only [List.length_cons]
    omega

/-- The probe pass succeeds when every cell of the traceback path is
still available: it counts the positive-score cursors, stops at the
terminating cursor and clears exactly the path cells. -/
theorem probe_done_eq (al : aligner_t)
    (hgo : al.scoring.gap_open ≤ 0) (hge : al.scoring.gap_extend ≤ 0) :
    ∀ st, Good al st ∨ Final al st →
      ∀ (mask : List Bool) (len fuel : Nat), st.pos al + 1 ≤ fuel →
        (∀ v ∈ trace al st, mask.getD (v.pos al) false = true) →
        probeLoop al fuel mask st len =
          probe_res.done (len + ((trace al st).length - 1)) (finalSt al st)
            (maskClear mask ((trace al st).map (tstate.pos al))) := by
  refine trace_rec al hgo hge _ ?_ ?_
  · intro st hf mask len fuel hfuel hmask
    rcases fuel with _ | fuel
    · omega
    · have hv : mask.getD (st.pos al) false = true := by
        refine hmask st ?_
        rw [trace_of_final al st hf]
        simp
      show probeLoop al (fuel + 1) mask st len = _
      unfold probeLoop
      rw [hv]
      simp only [Bool.true_eq_false, if_false]
      rw [if_pos hf.2.1, trace_of_final al st hf, finalSt_of_final al st hf]
      simp [maskClear]
  · intro st hg hgf ih mask len fuel hfuel hmask
    obtain ⟨_, hlt, _, _⟩ := step_main al hgo hge st hg
    rcases fuel with _ | fuel
    · omega
    · have hv : mask.getD (st.pos al) false = true := by
        refine hmask st ?_
        rw [trace_cons al hgo hge st hg]
        simp
      have hne : ¬ st.score = 0 := by
        have := hg.2.2.2
        omega
      show probeLoop al (fuel + 1) mask st len = _
      unfold probeLoop
      rw [hv]
      simp only [Bool.true_eq_false, if_false]
      rw [if_neg hne]
      have hmask' : ∀ v ∈ trace al (alignment_reverse_move al st),
          (mask.set (st.pos al) false).getD (v.pos al) false = true := by
        intro v hv'
        have hle := (trace_mem al hgo hge _ hgf v hv').2.1
        have hne' : st.pos al ≠ v.pos al := by omega
        rw [getD_set_ne _ _ _ _ hne']
        refine hmask v ?_
        rw [trace_cons al hgo hge st hg]
        exact List.mem_cons_of_mem _ hv'
      rw [ih (mask.set (st.pos al) false) (len + 1) fuel (by omega) hmask']
      rw [trace_cons al hgo hge st hg]
      have hnn : trace al (alignment_reverse_move al st) ≠ [] := trace_ne_nil al _
      have hlen : 1 ≤ (trace al (alignment_reverse_move al st)).length := by
        rcases hx : trace al (alignment_reverse_move al st) with _ | ⟨z, zs⟩
        · exact absurd hx hnn
        · simp
      rw [finalSt_cons al hgo hge st hg]
      simp only [List.length_cons, List.map_cons]
      rw [maskClear_cons]
      congr 1
      omega

theorem first_false {α : Type} (p : α → Prop) [DecidablePred p] :
    ∀ (l : List α), (¬ ∀ v ∈ l, p v) →
      ∃ pre v suf, l = pre ++ v :: suf ∧ (∀ u ∈ pre, p u) ∧ ¬ p v := by
  intro l
  induction l with
  | nil => intro h; exact absurd (by simp) h
  | cons x xs ih =>
    intro h
    by_cases hx : p x
    · have hxs : ¬ ∀ v ∈ xs, p v := by
        intro hall
        refine h ?_
        intro v hv
        rcases List.mem_cons.mp hv with hv | hv
        · subst hv; exact hx
        · exact hall v hv
      obtain ⟨pre, v, suf, heq, hpre, hv⟩ := ih hxs
      refine ⟨x :: pre, v, suf, by rw [heq]; rfl, ?_, hv⟩
      intro u hu
      rcases List.mem_cons.mp hu with hu | hu
      · subst hu; exact hx
      · exact hpre u hu
    · exact ⟨[], x, xs, rfl, by simp, hx⟩

/-- The probe pass aborts at the first already-consumed cell of the
path, having cleared exactly the cells before it. -/
theorem probe_abort_eq (al : aligner_t)
    (hgo : al.scoring.gap_open ≤ 0) (hge : al.scoring.gap_extend ≤ 0) :
    ∀ st, Good al st ∨ Final al st →
      ∀ (mask : List Bool) (len fuel : Nat) (pre suf : List tstate) (v : tstate),
        st.pos al + 1 ≤ fuel →
        trace al st = pre ++ v :: suf →
        (∀ u ∈ pre, mask.getD (u.pos al) false = true) →
        mask.getD (v.pos al) false = false →
        probeLoop al fuel mask st len =
          probe_res.abort (maskClear mask (pre.map (tstate.pos al))) := by
  refine trace_rec al hgo hge _ ?_ ?_
  · intro st hf mask len fuel pre suf v hfuel htr hpre hv
    rw [trace_of_final al st hf] at htr
    rcases pre with _ | ⟨p, ps⟩
    · simp only [List.nil_append] at htr
      injection htr with h1 h2
      have hv' : mask.getD (st.pos al) false = false := by
        rw [h1]
        exact hv
      rcases fuel with _ | fuel
      · omega
      · show probeLoop al (fuel + 1) mask st len = _
        unfold probeLoop
        rw [hv']
        simp [maskClear]
    · rw [List.cons_append] at htr
      injection htr with h1 h2
      exact absurd h2.symm (by simp)
  · intro st hg hgf ih mask len fuel pre suf v hfuel htr hpre hv
    obtain ⟨_, hlt, _, _⟩ := step_main al hgo hge st hg
    rw [trace_cons al hgo hge st hg] at htr
    rcases fuel with _ | fuel
    · omega
    · rcases pre with _ | ⟨p, ps⟩
      · simp only [List.nil_append] at htr
        injection htr with h1 h2
        have hv' : mask.getD (st.pos al) false = false := by
          rw [h1]
          exact hv
        show probeLoop al (fuel + 1) mask st len = _
        unfold probeLoop
        rw [hv']
        simp [maskClear]
      · rw [List.cons_append] at htr
        injection htr with h1 h2
        have hbit : mask.getD (st.pos al) false = true := by
          rw [h1]
          exact hpre p (List.mem_cons_self _ _)
        have hne : ¬ st.score = 0 := by
          have := hg.2.2.2
          omega
        show probeLoop al (fuel + 1) mask st len = _
        unfold probeLoop
        rw [hbit]
        simp only [Bool.true_eq_false, if_false]
        rw [if_neg hne]
        have hpre' : ∀ u ∈ ps, (mask.set (st.pos al) false).getD (u.pos al) false = true := by
          intro u hu
          have humem : u ∈ trace al (alignment_reverse_move al st) := by
            rw [h2]
            exact List.mem_append_left _ hu
          have hle := (trace_mem al hgo hge _ hgf u humem).2.1
          have hne' : st.pos al ≠ u.pos al := by omega
          rw [getD_set_ne _ _ _ _ hne']
          exact hpre u (List.mem_cons_of_mem _ hu)
        have hv' : (mask.set (st.pos al) false).getD (v.pos al) false = false := by
          have hvmem : v ∈ trace al (alignment_reverse_move al st) := by
            rw [h2]
            exact List.mem_append_right _ (List.mem_cons_self _ _)
          have hle := (trace_mem al hgo hge _ hgf v hvmem).2.1
          have hne' : st.pos al ≠ v.pos al := by omega
          rw [getD_set_ne _ _ _ _ hne']
          exact hv
        rw [ih (mask.set (st.pos al) false) (len + 1) fuel ps suf v (by omega) h2 hpre' hv']
        rw [h1]
        rfl

/-- With the canonical fuel the probe pass never exhausts its fuel. -/
theorem probe_no_fuelOut (al : aligner_t)
    (hgo : al.scoring.gap_open ≤ 0) (hge : al.scoring.gap_extend ≤ 0)
    (st : tstate) (hg : Good al st) (mask : List Bool) (fuel : Nat)
    (hfuel : st.pos al + 1 ≤ fuel) :
    ∀ m', probeLoop al fuel mask st 0 ≠ probe_res.fuelOut m' := by
  intro m'
  by_cases hall : ∀ v ∈ trace al st, mask.getD (v.pos al) false = true
  · rw [probe_done_eq al hgo hge st (Or.inl hg) mask 0 fuel hfuel hall]
    simp
  · obtain ⟨pre, v, suf, heq, hpre, hv⟩ :=
      first_false (fun v => mask.getD (v.pos al) false = true) (trace al st) hall
    rw [probe_abort_eq al hgo hge st (Or.inl hg) mask 0 fuel pre suf v hfuel heq hpre
        (by simpa using hv)]
    simp

/-
 Part 5: emit pass characterisation.
-/


theorem drop_set_eq_cons {α : Type} :
    ∀ (l : List α) (i : Nat) (v : α), i < l.length →
      (l.set i v).drop i = v :: l.drop (i + 1) := by
  intro l
  induction l with
  | nil => intro i v h; simp at h
  | cons x xs ih =>
    intro i v h
    cases i with
    | zero => rfl
    | succ i =>
      show (x :: xs.set i v).drop (i + 1) = v :: (x :: xs).drop (i + 2)
      rw [List.drop_succ_cons]
      exact ih i v (by simpa using h)

theorem dropLast_cons_of_ne_nil {α : Type} (x : α) (l : List α) (h : l ≠ []) :
    (x :: l).dropLast = x :: l.dropLast := by
  rcases l with _ | ⟨y, ys⟩
  · exact absurd rfl h
  · rfl

theorem stringA_of_final (al : aligner_t) (st : tstate) (hf : Final al st) :
    stringA al st = [] := by
  unfold stringA
  rw [trace_of_final al st hf]
  rfl

theorem stringB_of_final (al : aligner_t) (st : tstate) (hf : Final al st) :
    stringB al st = [] := by
  unfold stringB
  rw [trace_of_final al st hf]
  rfl

theorem stringA_cons (al : aligner_t)
    (hgo : al.scoring.gap_open ≤ 0) (hge : al.scoring.gap_extend ≤ 0)
    (st : tstate) (hg : Good al st) :
    stringA al st = stringA al (alignment_reverse_move al st) ++ [colA al st] := by
  unfold stringA
  rw [trace_cons al hgo hge st hg,
      dropLast_cons_of_ne_nil st _ (trace_ne_nil al _)]
  simp

theorem stringB_cons (al : aligner_t)
    (hgo : al.scoring.gap_open ≤ 0) (hge : al.scoring.gap_extend ≤ 0)
    (st : tstate) (hg : Good al st) :
    stringB al st = stringB al (alignment_reverse_move al st) ++ [colB al st] := by
  unfold stringB
  rw [trace_cons al hgo hge st hg,
      dropLast_cons_of_ne_nil st _ (trace_ne_nil al _)]
  simp

theorem stringA_length (al : aligner_t) (st : tstate) :
    (stringA al st).length = (trace al st).length - 1 := by
  unfold stringA
  simp

theorem stringB_length (al : aligner_t) (st : tstate) :
    (stringB al st).length = (trace al st).length - 1 := by
  unfold stringB
  simp

theorem emitLoop_stop (al : aligner_t) (fuel : Nat) (st : tstate)
    (h : st.score ≤ 0) (i : Nat) (ra rb : List Char) (idxs : List Nat) :
    emitLoop al fuel st i ra rb idxs = (ra, rb, idxs, st) := by
  cases fuel with
  | zero => rfl
  | succ fuel => simp [emitLoop, h]

theorem emitLoop_step (al : aligner_t) (fuel : Nat) (st : tstate)
    (h : 0 < st.score) (i : Nat) (ra rb : List Char) (idxs : List Nat) :
    emitLoop al (fuel + 1) st i ra rb idxs =
      emitLoop al fuel (alignment_reverse_move al st) (i - 1)
        (ra.set i (colA al st)) (rb.set i (colB al st)) (idxs ++ [i]) := by
  have hns : ¬ st.score ≤ 0 := by omega
  simp only [emitLoop, if_neg hns]

/-- The emit pass writes exactly the string of the path at descending
indices `length-1, …, 0`, and stops at the terminating cursor. -/
theorem emit_eq (al : aligner_t)
    (hgo : al.scoring.gap_open ≤ 0) (hge : al.scoring.gap_extend ≤ 0) :
    ∀ st, Good al st ∨ Final al st →
      ∀ (fuel i : Nat) (ra rb : List Char) (idxs : List Nat),
        (trace al st).length - 1 ≤ fuel →
        i + 1 = (trace al st).length - 1 →
        (trace al st).length - 1 ≤ ra.length →
        (trace al st).length - 1 ≤ rb.length →
        emitLoop al fuel st i ra rb idxs =
          (stringA al st ++ ra.drop ((trace al st).length - 1),
           stringB al st ++ rb.drop ((trace al st).length - 1),
           idxs ++ (List.range ((trace al st).length - 1)).reverse,
           finalSt al st) := by
  refine trace_rec al hgo hge _ ?_ ?_
  · intro st hf fuel i ra rb idxs hfuel hi hra hrb
    rw [trace_of_final al st hf] at hi
    simp at hi
  · intro st hg hgf ih fuel i ra rb idxs hfuel hi hra hrb
    have hL : (trace al st).length =
        (trace al (alignment_reverse_move al st)).length + 1 := by
      rw [trace_cons al hgo hge st hg]
      rfl
    have hL1 : 1 ≤ (trace al (alignment_reverse_move al st)).length := by
      rcases hx : trace al (alignment_reverse_move al st) with _ | ⟨z, zs⟩
      · exact absurd hx (trace_ne_nil al _)
      · simp
    rcases fuel with _ | fuel
    · omega
    · rw [emitLoop_step al fuel st hg.2.2.2 i ra rb idxs]
      rcases hgf with hgf | hgf
      · -- the predecessor is still live: recurse
        have hL2 : 2 ≤ (trace al (alignment_reverse_move al st)).length := by
          rw [trace_cons al hgo hge _ hgf]
          have := trace_ne_nil al (alignment_reverse_move al (alignment_reverse_move al st))
          rcases hx : trace al (alignment_reverse_move al (alignment_reverse_move al st)) with _ | ⟨z, zs⟩
          · exact absurd hx this
          · simp
        have hi' : i = (trace al st).length - 2 := by omega
        rw [ih fuel (i - 1) (ra.set i (colA al st)) (rb.set i (colB al st))
            (idxs ++ [i]) (by omega) (by omega)
            (by rw [List.length_set]; omega) (by rw [List.length_set]; omega)]
        have hsetA : (ra.set i (colA al st)).drop
            ((trace al (alignment_reverse_move al st)).length - 1) =
            colA al st :: ra.drop ((trace al st).length - 1) := by
          have hieq : i = (trace al (alignment_reverse_move al st)).length - 1 := by omega
          rw [← hieq]
          rw [drop_set_eq_cons ra i (colA al st) (by omega), hi]
        have hsetB : (rb.set i (colB al st)).drop
            ((trace al (alignment_reverse_move al st)).length - 1) =
            colB al st :: rb.drop ((trace al st).length - 1) := by
          have hieq : i = (trace al (alignment_reverse_move al st)).length - 1 := by omega
          rw [← hieq]
          rw [drop_set_eq_cons rb i (colB al st) (by omega), hi]
        rw [hsetA, hsetB, stringA_cons al hgo hge st hg, stringB_cons al hgo hge st hg,
            finalSt_cons al hgo hge st hg]
        have hrange : (List.range ((trace al st).length - 1)).reverse =
            i :: (List.range ((trace al (alignment_reverse_move al st)).length - 1)).reverse := by
          have : (trace al st).length - 1 =
              ((trace al (alignment_reverse_move al st)).length - 1) + 1 := by omega
          rw [this, List.range_succ]
          simp
          omega
        rw [hrange]
        simp
      · -- the predecessor is terminated: the walk stops there
        have hLf : (trace al (alignment_reverse_move al st)).length = 1 := by
          rw [trace_of_final al _ hgf]
          rfl
        have hi0 : i = 0 := by omega
        subst hi0
        rw [emitLoop_stop al fuel _ (le_of_eq hgf.2.1) _ _ _ _]
        rw [stringA_cons al hgo hge st hg, stringB_cons al hgo hge st hg,
            stringA_of_final al _ hgf, stringB_of_final al _ hgf,
            finalSt_cons al hgo hge st hg, finalSt_of_final al _ hgf]
        have hLs : (trace al st).length - 1 = 1 := by omega
        rw [hLs]
        have hra1 : 1 ≤ ra.length := by omega
        have hrb1 : 1 ≤ rb.length := by omega
        have hsetA : ra.set 0 (colA al st) = colA al st :: ra.drop 1 := by
          have := drop_set_eq_cons ra 0 (colA al st) (by omega)
          simpa using this
        have hsetB : rb.set 0 (colB al st) = colB al st :: rb.drop 1 := by
          have := drop_set_eq_cons rb 0 (colB al st) (by omega)
          simpa using this
        rw [hsetA, hsetB]
        simp [List.range_succ]

/-
 Part 6: _follow_hit characterisation.
-/


theorem startSt_pos (al : aligner_t) (arr_index : Nat) :
    (startSt al arr_index).pos al = arr_index := by
  unfold startSt tstate.pos
  simp only
  rw [Nat.mul_comm]
  exact Nat.div_add_mod arr_index al.score_width

theorem good_start (al : aligner_t) (arr_index : Nat)
    (hlt : arr_index < al.score_width * al.score_height)
    (hpos : 0 < al.match_scores arr_index) :
    Good al (startSt al arr_index) := by
  refine ⟨?_, ?_, rfl, hpos⟩
  · exact Nat.mod_lt _ (score_width_pos al)
  · show arr_index / al.score_width < al.score_height
    rw [Nat.div_lt_iff_lt_mul (score_width_pos al)]
    rw [Nat.mul_comm] at hlt
    exact hlt

theorem trace_length_two (al : aligner_t)
    (hgo : al.scoring.gap_open ≤ 0) (hge : al.scoring.gap_extend ≤ 0)
    (st : tstate) (hg : Good al st) : 2 ≤ (trace al st).length := by
  rw [trace_cons al hgo hge st hg]
  rcases hx : trace al (alignment_reverse_move al st) with _ | ⟨z, zs⟩
  · exact absurd hx (trace_ne_nil al _)
  · simp

theorem set_append_last {α : Type} :
    ∀ (l : List α) (c v : α), (l ++ [c]).set l.length v = l ++ [v] := by
  intro l
  induction l with
  | nil => intro c v; rfl
  | cons x xs ih =>
    intro c v
    show x :: (xs ++ [c]).set xs.length v = x :: (xs ++ [v])
    rw [ih]

theorem replicate_succ_drop (n : Nat) (c : Char) :
    (List.replicate (n + 1) c).drop n = [c] := by
  induction n with
  | zero => rfl
  | succ n ih =>
    rw [List.replicate_succ, List.drop_succ_cons]
    exact ih

theorem _follow_hit_eq_abort (sw : sw_aligner_t) (arr_index : Nat)
    (mask' : List Bool)
    (hp : probeLoop sw.aligner ((startSt sw.aligner arr_index).pos sw.aligner + 1)
        sw.history.match_scores_mask (startSt sw.aligner arr_index) 0 =
        probe_res.abort mask') :
    _follow_hit sw arr_index = (none, mask') := by
  unfold _follow_hit
  simp only [hp]

/-- A follow whose whole path is unconsumed succeeds, returns the
closed-form alignment record and clears exactly the path cells. -/
theorem follow_done (sw : sw_aligner_t) (arr_index : Nat)
    (hgo : sw.aligner.scoring.gap_open ≤ 0) (hge : sw.aligner.scoring.gap_extend ≤ 0)
    (hg : Good sw.aligner (startSt sw.aligner arr_index))
    (hmask : ∀ v ∈ trace sw.aligner (startSt sw.aligner arr_index),
        sw.history.match_scores_mask.getD (v.pos sw.aligner) false = true) :
    _follow_hit sw arr_index =
      (some (followRes sw.aligner arr_index),
       maskClear sw.history.match_scores_mask
         ((trace sw.aligner (startSt sw.aligner arr_index)).map (tstate.pos sw.aligner))) := by
  have hL2 := trace_length_two sw.aligner hgo hge _ hg
  have hLle : (trace sw.aligner (startSt sw.aligner arr_index)).length - 1 ≤
      (startSt sw.aligner arr_index).pos sw.aligner := by
    have := trace_length_le sw.aligner hgo hge _ (Or.inl hg)
    omega
  have hp := probe_done_eq sw.aligner hgo hge _ (Or.inl hg)
    sw.history.match_scores_mask 0 ((startSt sw.aligner arr_index).pos sw.aligner + 1)
    le_rfl hmask
  rw [Nat.zero_add] at hp
  have hE := emit_eq sw.aligner hgo hge _ (Or.inl hg)
    ((startSt sw.aligner arr_index).pos sw.aligner + 1)
    ((trace sw.aligner (startSt sw.aligner arr_index)).length - 1 - 1)
    (List.replicate ((trace sw.aligner (startSt sw.aligner arr_index)).length - 1 + 1) ' ')
    (List.replicate ((trace sw.aligner (startSt sw.aligner arr_index)).length - 1 + 1) ' ')
    []
    (by omega) (by omega)
    (by rw [List.length_replicate]; omega) (by rw [List.length_replicate]; omega)
  have hdrop : (List.replicate
      ((trace sw.aligner (startSt sw.aligner arr_index)).length - 1 + 1) ' ').drop
      ((trace sw.aligner (startSt sw.aligner arr_index)).length - 1) = [' '] :=
    replicate_succ_drop _ ' '
  rw [hdrop] at hE
  unfold _follow_hit
  simp only [hp, hE]
  have hsetA : (stringA sw.aligner (startSt sw.aligner arr_index) ++ [' ']).set
      ((trace sw.aligner (startSt sw.aligner arr_index)).length - 1) '\x00' =
      stringA sw.aligner (startSt sw.aligner arr_index) ++ ['\x00'] := by
    have hlen : (stringA sw.aligner (startSt sw.aligner arr_index)).length =
        (trace sw.aligner (startSt sw.aligner arr_index)).length - 1 :=
      stringA_length _ _
    rw [← hlen]
    exact set_append_last _ ' ' '\x00'
  have hsetB : (stringB sw.aligner (startSt sw.aligner arr_index) ++ [' ']).set
      ((trace sw.aligner (startSt sw.aligner arr_index)).length - 1) '\x00' =
      stringB sw.aligner (startSt sw.aligner arr_index) ++ ['\x00'] := by
    have hlen : (stringB sw.aligner (startSt sw.aligner arr_index)).length =
        (trace sw.aligner (startSt sw.aligner arr_index)).length - 1 :=
      stringB_length _ _
    rw [← hlen]
    exact set_append_last _ ' ' '\x00'
  rw [hsetA, hsetB]
  rfl

/-
 Part 7: the align operation and the sorted hit list.
-/

theorem swRel_iff (al : aligner_t) (p q : Nat) :
    swRel al p q ↔
      (al.match_scores q < al.match_scores p ∨
       (al.match_scores q = al.match_scores p ∧
        p % al.score_width ≤ q % al.score_width)) := by
  unfold swRel sort_match_indices
  by_cases hd : al.match_scores q - al.match_scores p = 0
  · rw [if_pos hd]
    constructor
    · intro h
      right
      constructor
      · omega
      · have := sub_nonpos.mp h
        exact_mod_cast this
    · intro h
      rcases h with h | ⟨h1, h2⟩
      · omega
      · have : ((p % al.score_width : Nat) : Int) ≤ ((q % al.score_width : Nat) : Int) := by
          exact_mod_cast h2
        omega
  · rw [if_neg hd]
    by_cases hgt : al.match_scores q - al.match_scores p > 0
    · rw [if_pos hgt]
      constructor
      · intro h; omega
      · intro h
        rcases h with h | ⟨h1, _⟩ <;> omega
    · rw [if_neg hgt]
      constructor
      · intro _
        left
        omega
      · intro _
        omega

instance swRel_total (al : aligner_t) : IsTotal Nat (swRel al) := by
  constructor
  intro p q
  rw [swRel_iff, swRel_iff]
  rcases lt_trichotomy (al.match_scores p) (al.match_scores q) with h | h | h
  · right; left; omega
  · rcases Nat.le_total (p % al.score_width) (q % al.score_width) with h2 | h2
    · left; right; exact ⟨h.symm, h2⟩
    · right; right; exact ⟨h, h2⟩
  · left; left; omega

instance swRel_trans (al : aligner_t) : IsTrans Nat (swRel al) := by
  constructor
  intro p q r hpq hqr
  rw [swRel_iff] at hpq hqr ⊢
  rcases hpq with h1 | ⟨h1, h1x⟩ <;> rcases hqr with h2 | ⟨h2, h2x⟩
  · left; omega
  · left; omega
  · left; omega
  · right
    exact ⟨by omega, le_trans h1x h2x⟩

theorem align2_aligner (a b : List Char) (sc : scoring_t) :
    (smith_waterman_align2 a b sc).aligner = ⟨a, b, sc⟩ := rfl

theorem align2_mask (a b : List Char) (sc : scoring_t) :
    (smith_waterman_align2 a b sc).history.match_scores_mask =
      List.replicate ((⟨a, b, sc⟩ : aligner_t).score_width *
        (⟨a, b, sc⟩ : aligner_t).score_height) true := rfl

theorem align2_next (a b : List Char) (sc : scoring_t) :
    (smith_waterman_align2 a b sc).history.next_hit = 0 := rfl

theorem align2_sorted (a b : List Char) (sc : scoring_t) :
    (smith_waterman_align2 a b sc).history.sorted_match_indices =
      List.insertionSort (swRel (⟨a, b, sc⟩ : aligner_t))
        ((List.range ((⟨a, b, sc⟩ : aligner_t).score_width *
            (⟨a, b, sc⟩ : aligner_t).score_height)).filter
          (fun pos => 0 < (⟨a, b, sc⟩ : aligner_t).match_scores pos)) := rfl

theorem align2_sorted_mem (a b : List Char) (sc : scoring_t) (h : Nat) :
    h ∈ (smith_waterman_align2 a b sc).history.sorted_match_indices ↔
      (h < (⟨a, b, sc⟩ : aligner_t).score_width *
        (⟨a, b, sc⟩ : aligner_t).score_height ∧
       0 < (⟨a, b, sc⟩ : aligner_t).match_scores h) := by
  rw [align2_sorted, List.mem_insertionSort, List.mem_filter, List.mem_range]
  simp

theorem align2_sorted_nodup (a b : List Char) (sc : scoring_t) :
    (smith_waterman_align2 a b sc).history.sorted_match_indices.Nodup := by
  rw [align2_sorted]
  exact ((List.perm_insertionSort _ _).nodup_iff).mpr
    ((List.nodup_range _).filter _)

theorem align2_sorted_pairwise (a b : List Char) (sc : scoring_t) :
    (smith_waterman_align2 a b sc).history.sorted_match_indices.Pairwise
      (swRel (⟨a, b, sc⟩ : aligner_t)) := by
  rw [align2_sorted]
  exact List.sorted_insertionSort _ _

/-
 Part 8: the fetch loop.
-/

theorem getD_mem_of_lt {l : List Nat} {i : Nat} (h : i < l.length) : l.getD i 0 ∈ l := by
  rw [List.getD_eq_getElem?_getD, List.getElem?_eq_getElem h]
  exact List.getElem_mem h

theorem take_sublist_take (l : List Nat) (m n : Nat) (h : m ≤ n) :
    List.Sublist (l.take m) (l.take n) := by
  have h1 : l.take m = (l.take n).take m := by
    rw [List.take_take]
    congr 1
    omega
  rw [h1]
  exact List.take_sublist m (l.take n)

theorem take_succ_getD (l : List Nat) (j : Nat) (h : j < l.length) :
    l.take (j + 1) = l.take j ++ [l.getD j 0] := by
  rw [List.take_succ, List.getElem?_eq_getElem h, List.getD_eq_getElem?_getD,
      List.getElem?_eq_getElem h]
  rfl

theorem getD_replicate_true {n i : Nat} (h : i < n) :
    (List.replicate n true).getD i false = true := by
  rw [List.getD_eq_getElem?_getD, List.getElem?_replicate]
  simp [h]

theorem fetchGo_succ (al : aligner_t) (sorted : List Nat) (fuel : Nat)
    (mask : List Bool) (next : Nat) :
    fetchGo al sorted (fuel + 1) mask next =
      if next < sorted.length then
        if mask.getD (sorted.getD next 0) false then
          match _follow_hit ⟨al, ⟨mask, sorted, next + 1⟩⟩ (sorted.getD next 0) with
          | (some r, mask') => (some (r, sorted.getD next 0), mask', next + 1)
          | (none, mask') => fetchGo al sorted fuel mask' (next + 1)
        else fetchGo al sorted fuel mask (next + 1)
      else (none, mask, next) := rfl

theorem fetchGo_zero (al : aligner_t) (sorted : List Nat)
    (mask : List Bool) (next : Nat) :
    fetchGo al sorted 0 mask next = (none, mask, next) := rfl

theorem fetchGo_stop (al : aligner_t) (sorted : List Nat) (fuel : Nat)
    (mask : List Bool) (next : Nat) (h : ¬ next < sorted.length) :
    fetchGo al sorted (fuel + 1) mask next = (none, mask, next) := by
  rw [fetchGo_succ, if_neg h]

theorem fetchGo_skip (al : aligner_t) (sorted : List Nat) (fuel : Nat)
    (mask : List Bool) (next : Nat) (h : next < sorted.length)
    (hbit : mask.getD (sorted.getD next 0) false = false) :
    fetchGo al sorted (fuel + 1) mask next = fetchGo al sorted fuel mask (next + 1) := by
  rw [fetchGo_succ, if_pos h, hbit]
  rfl

theorem fetchGo_hit_some (al : aligner_t) (sorted : List Nat) (fuel : Nat)
    (mask : List Bool) (next : Nat) (h : next < sorted.length)
    (hbit : mask.getD (sorted.getD next 0) false = true)
    (r : alignment_t) (mask' : List Bool)
    (hf : _follow_hit ⟨al, ⟨mask, sorted, next + 1⟩⟩ (sorted.getD next 0) = (some r, mask')) :
    fetchGo al sorted (fuel + 1) mask next = (some (r, sorted.getD next 0), mask', next + 1) := by
  rw [fetchGo_succ, if_pos h, hbit, if_pos rfl, hf]

theorem fetchGo_hit_none (al : aligner_t) (sorted : List Nat) (fuel : Nat)
    (mask : List Bool) (next : Nat) (h : next < sorted.length)
    (hbit : mask.getD (sorted.getD next 0) false = true)
    (mask' : List Bool)
    (hf : _follow_hit ⟨al, ⟨mask, sorted, next + 1⟩⟩ (sorted.getD next 0) = (none, mask')) :
    fetchGo al sorted (fuel + 1) mask next = fetchGo al sorted fuel mask' (next + 1) := by
  rw [fetchGo_succ, if_pos h, hbit, if_pos rfl, hf]

/-- The cell indices visited by the traceback of hit `h` coincide with
the mapped trace. -/
theorem hitCells_def (al : aligner_t) (h : Nat) :
    hitCells al h = (trace al (startSt al h)).map (tstate.pos al) := rfl

/-- Main invariant of the fetch loop: the mask only loses bits, the
cursor only advances, exhaustion means the cursor reached the end, and
a success returns the closed-form alignment of a hit at or past the
cursor whose whole path was unconsumed when it was followed. -/
theorem fetchGo_spec (al : aligner_t)
    (hgo : al.scoring.gap_open ≤ 0) (hge : al.scoring.gap_extend ≤ 0)
    (sorted : List Nat)
    (hS : ∀ h ∈ sorted, h < al.score_width * al.score_height ∧
      0 < al.match_scores h) :
    ∀ (fuel : Nat) (mask : List Bool) (next : Nat),
      next ≤ sorted.length → sorted.length - next ≤ fuel →
      (∀ p, mask.getD p false = false →
        (fetchGo al sorted fuel mask next).2.1.getD p false = false) ∧
      (fetchGo al sorted fuel mask next).2.1.length = mask.length ∧
      next ≤ (fetchGo al sorted fuel mask next).2.2 ∧
      (fetchGo al sorted fuel mask next).2.2 ≤ sorted.length ∧
      ((fetchGo al sorted fuel mask next).1 = none →
        (fetchGo al sorted fuel mask next).2.2 = sorted.length) ∧
      (∀ r h, (fetchGo al sorted fuel mask next).1 = some (r, h) →
        ∃ j, next ≤ j ∧ j < sorted.length ∧ sorted.getD j 0 = h ∧
          (fetchGo al sorted fuel mask next).2.2 = j + 1 ∧
          r = followRes al h ∧
          (∀ p, mask.getD p false = false → p ∉ hitCells al h) ∧
          (∀ c ∈ hitCells al h,
            (fetchGo al sorted fuel mask next).2.1.getD c false = false)) := by
  intro fuel
  induction fuel with
  | zero =>
    intro mask next hle hfuel
    rw [fetchGo_zero]
    refine ⟨fun p hp => hp, rfl, le_rfl, hle,
      fun _ => by show next = sorted.length; omega, ?_⟩
    intro r h hr
    simp at hr
  | succ fuel ih =>
    intro mask next hle hfuel
    by_cases hlt : next < sorted.length
    · have hmem : sorted.getD next 0 ∈ sorted := getD_mem_of_lt hlt
      have hgood : Good al (startSt al (sorted.getD next 0)) :=
        good_start al _ (hS _ hmem).1 (hS _ hmem).2
      by_cases hbit : mask.getD (sorted.getD next 0) false = true
      · by_cases hall : ∀ v ∈ trace al (startSt al (sorted.getD next 0)),
            mask.getD (v.pos al) false = true
        · -- full path available: this hit succeeds
          have hf := follow_done ⟨al, ⟨mask, sorted, next + 1⟩⟩ (sorted.getD next 0)
            hgo hge hgood hall
          dsimp only at hf
          rw [fetchGo_hit_some al sorted fuel mask next hlt hbit _ _ hf]
          dsimp only
          refine ⟨?_, ?_, by omega, by omega, ?_, ?_⟩
          · intro p hp
            exact maskClear_mono _ _ _ hp
          · exact maskClear_length _ _
          · intro hnone
            exact absurd hnone (by simp)
          · intro r h hr
            rw [Option.some.injEq, Prod.mk.injEq] at hr
            obtain ⟨hr1, hr2⟩ := hr
            subst hr2
            refine ⟨next, le_rfl, hlt, rfl, rfl, hr1.symm, ?_, ?_⟩
            · intro p hp hpc
              rw [hitCells_def, List.mem_map] at hpc
              obtain ⟨v, hv, hvp⟩ := hpc
              have := hall v hv
              rw [hvp, hp] at this
              exact Bool.false_ne_true this
            · intro c hc
              rw [hitCells_def, List.mem_map] at hc
              obtain ⟨v, hv, hvp⟩ := hc
              refine maskClear_mem _ _ _ ?_
              rw [← hvp]
              exact List.mem_map_of_mem _ hv
        · -- a path cell is already consumed: this follow aborts
          obtain ⟨pre, v, suf, heq, hpre, hv⟩ :=
            first_false (fun (v : tstate) => mask.getD (v.pos al) false = true)
              (trace al (startSt al (sorted.getD next 0))) hall
          have hv' : mask.getD (v.pos al) false = false := by
            simpa using hv
          have hp := probe_abort_eq al hgo hge _ (Or.inl hgood) mask 0
            ((startSt al (sorted.getD next 0)).pos al + 1) pre suf v le_rfl heq hpre hv'
          have hf := _follow_hit_eq_abort ⟨al, ⟨mask, sorted, next + 1⟩⟩
            (sorted.getD next 0) _ hp
          rw [fetchGo_hit_none al sorted fuel mask next hlt hbit _ hf]
          have hrec := ih (maskClear mask (pre.map (tstate.pos al))) (next + 1)
            (by omega) (by omega)
          obtain ⟨m1, m2, m3, m4, m5, m6⟩ := hrec
          refine ⟨?_, ?_, by omega, m4, m5, ?_⟩
          · intro p hp'
            exact m1 p (maskClear_mono _ _ _ hp')
          · rw [m2, maskClear_length]
          · intro r h hr
            obtain ⟨j, hj1, hj2, hj3, hj4, hj5, hj6, hj7⟩ := m6 r h hr
            refine ⟨j, by omega, hj2, hj3, hj4, hj5, ?_, hj7⟩
            intro p hp'
            exact hj6 p (maskClear_mono _ _ _ hp')
      · -- start cell consumed: skipped
        have hbit' : mask.getD (sorted.getD next 0) false = false := by
          simpa using hbit
        rw [fetchGo_skip al sorted fuel mask next hlt hbit']
        have hrec := ih mask (next + 1) (by omega) (by omega)
        obtain ⟨m1, m2, m3, m4, m5, m6⟩ := hrec
        refine ⟨m1, m2, by omega, m4, m5, ?_⟩
        intro r h hr
        obtain ⟨j, hj1, hj2, hj3, hj4, hj5, hj6, hj7⟩ := m6 r h hr
        exact ⟨j, by omega, hj2, hj3, hj4, hj5, hj6, hj7⟩
    · rw [fetchGo_stop al sorted fuel mask next hlt]
      dsimp only
      refine ⟨fun p hp => hp, rfl, le_rfl, hle,
        fun _ => by show next = sorted.length; omega, ?_⟩
      intro r h hr
      simp at hr

theorem pos_lt_arr (al : aligner_t) (v : tstate)
    (h : Good al v ∨ Final al v) :
    v.pos al < al.score_width * al.score_height := by
  have hx : v.x < al.score_width := by
    rcases h with h | h
    · exact h.1
    · exact h.2.2.1
  have hy : v.y < al.score_height := by
    rcases h with h | h
    · exact h.2.1
    · exact h.2.2.2.1
  unfold tstate.pos
  calc v.y * al.score_width + v.x < v.y * al.score_width + al.score_width := by omega
    _ = (v.y + 1) * al.score_width := by ring
    _ ≤ al.score_height * al.score_width := Nat.mul_le_mul_right _ (by omega)
    _ = al.score_width * al.score_height := Nat.mul_comm _ _

/-- On a freshly primed session the very first hit is followed
successfully. -/
theorem fetchGo_first (al : aligner_t)
    (hgo : al.scoring.gap_open ≤ 0) (hge : al.scoring.gap_extend ≤ 0)
    (sorted : List Nat)
    (hS : ∀ h ∈ sorted, h < al.score_width * al.score_height ∧
      0 < al.match_scores h)
    (hne : 0 < sorted.length) (fuel : Nat) :
    fetchGo al sorted (fuel + 1)
        (List.replicate (al.score_width * al.score_height) true) 0 =
      (some (followRes al (sorted.getD 0 0), sorted.getD 0 0),
       maskClear (List.replicate (al.score_width * al.score_height) true)
         (hitCells al (sorted.getD 0 0)), 1) := by
  have hmem : sorted.getD 0 0 ∈ sorted := getD_mem_of_lt hne
  have hgood : Good al (startSt al (sorted.getD 0 0)) :=
    good_start al _ (hS _ hmem).1 (hS _ hmem).2
  have hbit : (List.replicate (al.score_width * al.score_height) true).getD
      (sorted.getD 0 0) false = true :=
    getD_replicate_true (hS _ hmem).1
  have hall : ∀ v ∈ trace al (startSt al (sorted.getD 0 0)),
      (List.replicate (al.score_width * al.score_height) true).getD
        (v.pos al) false = true := by
    intro v hv
    exact getD_replicate_true
      (pos_lt_arr al v (trace_mem al hgo hge _ (Or.inl hgood) v hv).1)
  have hf := follow_done ⟨al, ⟨List.replicate (al.score_width * al.score_height) true,
    sorted, 1⟩⟩ (sorted.getD 0 0) hgo hge hgood hall
  dsimp only at hf
  rw [fetchGo_hit_some al sorted fuel _ 0 hne hbit _ _ hf]
  rfl

theorem fetchP_eq (sw : sw_aligner_t) :
    fetchP sw =
      ((fetchGo sw.aligner sw.history.sorted_match_indices
          (sw.history.sorted_match_indices.length - sw.history.next_hit)
          sw.history.match_scores_mask sw.history.next_hit).1,
       ⟨sw.aligner,
        ⟨(fetchGo sw.aligner sw.history.sorted_match_indices
            (sw.history.sorted_match_indices.length - sw.history.next_hit)
            sw.history.match_scores_mask sw.history.next_hit).2.1,
         sw.history.sorted_match_indices,
         (fetchGo sw.aligner sw.history.sorted_match_indices
            (sw.history.sorted_match_indices.length - sw.history.next_hit)
            sw.history.match_scores_mask sw.history.next_hit).2.2⟩⟩) := rfl

theorem fetch_eq (sw : sw_aligner_t) :
    smith_waterman_fetch sw = ((fetchP sw).1.map Prod.fst, (fetchP sw).2) := rfl

theorem runFetchP_zero (sw : sw_aligner_t) : runFetchP sw 0 = ([], sw) := rfl

theorem runFetchP_succ_front (sw : sw_aligner_t) (n : Nat) :
    runFetchP sw (n + 1) =
      ((fetchP sw).1.toList ++ (runFetchP (fetchP sw).2 n).1,
       (runFetchP (fetchP sw).2 n).2) := rfl

theorem runFetchP_succ_back : ∀ (n : Nat) (sw : sw_aligner_t),
    runFetchP sw (n + 1) =
      ((runFetchP sw n).1 ++ (fetchP (runFetchP sw n).2).1.toList,
       (fetchP (runFetchP sw n).2).2) := by
  intro n
  induction n with
  | zero =>
    intro sw
    rw [runFetchP_succ_front, runFetchP_zero, runFetchP_zero]
    simp
  | succ n ih =>
    intro sw
    rw [runFetchP_succ_front, ih (fetchP sw).2, runFetchP_succ_front]
    simp

theorem fetchGo_none_ge (al : aligner_t) (sorted : List Nat) :
    ∀ (fuel : Nat) (mask : List Bool) (next : Nat) (m₁ : List Bool) (n₁ : Nat),
      sorted.length - next ≤ fuel →
      fetchGo al sorted fuel mask next = (none, m₁, n₁) →
      sorted.length ≤ n₁ := by
  intro fuel
  induction fuel with
  | zero =>
    intro mask next m₁ n₁ hfuel heq
    rw [fetchGo_zero] at heq
    injection heq with h1 h2
    injection h2 with h3 h4
    omega
  | succ fuel ih =>
    intro mask next m₁ n₁ hfuel heq
    by_cases hlt : next < sorted.length
    · by_cases hbit : mask.getD (sorted.getD next 0) false = true
      · rcases hfres : _follow_hit ⟨al, ⟨mask, sorted, next + 1⟩⟩ (sorted.getD next 0) with
          ⟨ores, m'⟩
        rcases ores with _ | r
        · rw [fetchGo_hit_none al sorted fuel mask next hlt hbit m' hfres] at heq
          exact ih _ _ _ _ (by omega) heq
        · rw [fetchGo_hit_some al sorted fuel mask next hlt hbit r m' hfres] at heq
          injection heq with h1 h2
          simp at h1
      · have hbit' : mask.getD (sorted.getD next 0) false = false := by
          simpa using hbit
        rw [fetchGo_skip al sorted fuel mask next hlt hbit'] at heq
        exact ih _ _ _ _ (by omega) heq
    · rw [fetchGo_stop al sorted fuel mask next hlt] at heq
      injection heq with h1 h2
      injection h2 with h3 h4
      omega

/-- Exhaustion is a fixed point of `fetch`: after a `none` return any
further call returns `none` and leaves the session untouched. -/
theorem fetch_none_fix (sw sw₁ : sw_aligner_t)
    (hf : smith_waterman_fetch sw = (none, sw₁)) :
    smith_waterman_fetch sw₁ = (none, sw₁) := by
  rw [fetch_eq] at hf
  injection hf with h1 h2
  have hnone : (fetchP sw).1 = none := Option.map_eq_none.mp h1
  rw [fetchP_eq] at h2 hnone
  dsimp only at h2 hnone
  set X := fetchGo sw.aligner sw.history.sorted_match_indices
    (sw.history.sorted_match_indices.length - sw.history.next_hit)
    sw.history.match_scores_mask sw.history.next_hit with hX
  have heta : X = (none, X.2.1, X.2.2) := by
    rw [← hnone]
  have hge' : sw.history.sorted_match_indices.length ≤ X.2.2 :=
    fetchGo_none_ge sw.aligner sw.history.sorted_match_indices _
      sw.history.match_scores_mask sw.history.next_hit X.2.1 X.2.2 le_rfl (hX ▸ heta)
  rw [← h2]
  rw [fetch_eq, fetchP_eq]
  dsimp only
  have hfuel0 : sw.history.sorted_match_indices.length - X.2.2 = 0 := by omega
  rw [hfuel0, fetchGo_zero]
  rfl

/-- Session invariant along any sequence of `fetch` calls after one
`align`: the aligner and sorted hits are unchanged, the cursor only
advances, the returned hits form an order-preserving subsequence of the
sorted hit list, every returned alignment is the closed-form record of
its hit, all cells of returned tracebacks are consumed, and the
tracebacks of distinct returned alignments are pairwise disjoint. -/
theorem run_inv (a b : List Char) (sc : scoring_t)
    (hgo : sc.gap_open ≤ 0) (hge : sc.gap_extend ≤ 0) :
    ∀ n : Nat,
      (runFetchP (smith_waterman_align2 a b sc) n).2.aligner = (⟨a, b, sc⟩ : aligner_t) ∧
      (runFetchP (smith_waterman_align2 a b sc) n).2.history.sorted_match_indices =
        (smith_waterman_align2 a b sc).history.sorted_match_indices ∧
      (runFetchP (smith_waterman_align2 a b sc) n).2.history.next_hit ≤
        (smith_waterman_align2 a b sc).history.sorted_match_indices.length ∧
      List.Sublist ((runFetchP (smith_waterman_align2 a b sc) n).1.map Prod.snd)
        ((smith_waterman_align2 a b sc).history.sorted_match_indices.take
          ((runFetchP (smith_waterman_align2 a b sc) n).2.history.next_hit)) ∧
      (∀ o ∈ (runFetchP (smith_waterman_align2 a b sc) n).1,
        o.1 = followRes (⟨a, b, sc⟩ : aligner_t) o.2 ∧
        o.2 ∈ (smith_waterman_align2 a b sc).history.sorted_match_indices) ∧
      (∀ o ∈ (runFetchP (smith_waterman_align2 a b sc) n).1,
        ∀ c ∈ hitCells (⟨a, b, sc⟩ : aligner_t) o.2,
          (runFetchP (smith_waterman_align2 a b sc) n).2.history.match_scores_mask.getD
            c false = false) ∧
      (runFetchP (smith_waterman_align2 a b sc) n).1.Pairwise
        (fun o o' => ∀ c ∈ hitCells (⟨a, b, sc⟩ : aligner_t) o.2,
          c ∉ hitCells (⟨a, b, sc⟩ : aligner_t) o'.2) := by
  intro n
  induction n with
  | zero =>
    rw [runFetchP_zero]
    refine ⟨rfl, rfl, ?_, ?_, ?_, ?_, ?_⟩
    · rw [align2_next]
      exact Nat.zero_le _
    · rw [align2_next]
      exact List.nil_sublist _
    · intro o ho
      simp at ho
    · intro o ho
      simp at ho
    · simp
  | succ n ih =>
    obtain ⟨i1, i2, i3, i4, i5, i6, i7⟩ := ih
    rw [runFetchP_succ_back]
    have hSmem : ∀ h ∈ (runFetchP (smith_waterman_align2 a b sc) n).2.history.sorted_match_indices,
        h < (runFetchP (smith_waterman_align2 a b sc) n).2.aligner.score_width *
            (runFetchP (smith_waterman_align2 a b sc) n).2.aligner.score_height ∧
        0 < (runFetchP (smith_waterman_align2 a b sc) n).2.aligner.match_scores h := by
      rw [i1, i2]
      intro h hh
      exact (align2_sorted_mem a b sc h).mp hh
    have hspec := fetchGo_spec (runFetchP (smith_waterman_align2 a b sc) n).2.aligner
      (by rw [i1]; exact hgo) (by rw [i1]; exact hge)
      (runFetchP (smith_waterman_align2 a b sc) n).2.history.sorted_match_indices hSmem
      ((runFetchP (smith_waterman_align2 a b sc) n).2.history.sorted_match_indices.length -
        (runFetchP (smith_waterman_align2 a b sc) n).2.history.next_hit)
      (runFetchP (smith_waterman_align2 a b sc) n).2.history.match_scores_mask
      (runFetchP (smith_waterman_align2 a b sc) n).2.history.next_hit
      (by rw [i2]; exact i3) le_rfl
    obtain ⟨m1, m2, m3, m4, m5, m6⟩ := hspec
    rw [fetchP_eq]
    dsimp only
    set G := fetchGo (runFetchP (smith_waterman_align2 a b sc) n).2.aligner
      (runFetchP (smith_waterman_align2 a b sc) n).2.history.sorted_match_indices
      ((runFetchP (smith_waterman_align2 a b sc) n).2.history.sorted_match_indices.length -
        (runFetchP (smith_waterman_align2 a b sc) n).2.history.next_hit)
      (runFetchP (smith_waterman_align2 a b sc) n).2.history.match_scores_mask
      (runFetchP (smith_waterman_align2 a b sc) n).2.history.next_hit with hG
    rcases hres : G.1 with _ | ⟨r, h⟩
    · -- this fetch returned nothing
      refine ⟨i1, i2, by rw [← i2]; exact m4, ?_, ?_, ?_, ?_⟩
      · simp only [Option.toList_none, List.append_nil, List.map_append,
          List.map_nil, List.append_nil]
        exact i4.trans (take_sublist_take _ _ _ m3)
      · intro o ho
        simp only [Option.toList_none, List.append_nil] at ho
        exact i5 o ho
      · intro o ho
        simp only [Option.toList_none, List.append_nil] at ho
        intro c hc
        exact m1 c (i6 o ho c hc)
      · simp only [Option.toList_none, List.append_nil]
        exact i7
    · -- this fetch returned the alignment of hit h
      obtain ⟨j, hj1, hj2, hj3, hj4, hj5, hj6, hj7⟩ := m6 r h hres
      refine ⟨i1, i2, by rw [← i2]; exact m4, ?_, ?_, ?_, ?_⟩
      · simp only [Option.toList_some, List.map_append, List.map_cons, List.map_nil]
        rw [hj4]
        have htake : (smith_waterman_align2 a b sc).history.sorted_match_indices.take (j + 1) =
            (smith_waterman_align2 a b sc).history.sorted_match_indices.take j ++ [h] := by
          rw [← i2]
          rw [take_succ_getD _ _ hj2, hj3]
        rw [htake]
        refine List.Sublist.append ?_ (List.Sublist.refl _)
        refine i4.trans ?_
        refine take_sublist_take _ _ _ hj1
      · intro o ho
        rw [List.mem_append] at ho
        rcases ho with ho | ho
        · exact i5 o ho
        · simp only [Option.toList_some, List.mem_singleton] at ho
          subst ho
          constructor
          · rw [hj5, i1]
          · rw [← i2, ← hj3]
            exact getD_mem_of_lt hj2
      · intro o ho
        rw [List.mem_append] at ho
        rcases ho with ho | ho
        · intro c hc
          exact m1 c (i6 o ho c hc)
        · simp only [Option.toList_some, List.mem_singleton] at ho
          subst ho
          intro c hc
          refine hj7 c ?_
          rw [i1]
          exact hc
      · rw [List.pairwise_append]
        refine ⟨i7, by simp, ?_⟩
        intro o ho o' ho'
        simp only [Option.toList_some, List.mem_singleton] at ho'
        subst ho'
        intro c hc
        have hcl : (runFetchP (smith_waterman_align2 a b sc)
            n).2.history.match_scores_mask.getD c false = false :=
          i6 o ho c hc
        have hni := hj6 c hcl
        intro hmem
        refine hni ?_
        rw [i1]
        exact hmem

theorem runFetch_eq_runFetchP : ∀ (n : Nat) (sw : sw_aligner_t),
    runFetch sw n = ((runFetchP sw n).1.map Prod.fst, (runFetchP sw n).2) := by
  intro n
  induction n with
  | zero => intro sw; rfl
  | succ n ih =>
    intro sw
    show ((smith_waterman_fetch sw).1.toList ++ (runFetch (smith_waterman_fetch sw).2 n).1,
          (runFetch (smith_waterman_fetch sw).2 n).2) = _
    rw [fetch_eq]
    dsimp only
    rw [ih (fetchP sw).2, runFetchP_succ_front]
    dsimp only
    rw [List.map_append]
    congr 1
    rcases (fetchP sw).1 with _ | o
    · rfl
    · rfl

theorem getLastD_mem {α : Type} : ∀ (l : List α) (d : α), l ≠ [] → l.getLastD d ∈ l := by
  intro l
  induction l with
  | nil => intro d h; exact absurd rfl h
  | cons x xs ih =>
    intro d _
    rw [List.getLastD_cons]
    rcases hxs : xs with _ | ⟨y, ys⟩
    · simp
    · rw [← hxs]
      have := ih x (by rw [hxs]; simp)
      exact List.mem_cons_of_mem _ this

theorem finalSt_mem (al : aligner_t) (st : tstate) :
    finalSt al st ∈ trace al st :=
  getLastD_mem _ _ (trace_ne_nil al st)

theorem followRes_score (al : aligner_t) (h : Nat) :
    (followRes al h).score = al.match_scores h := rfl

theorem followRes_end_x (al : aligner_t)
    (hgo : al.scoring.gap_open ≤ 0) (hge : al.scoring.gap_extend ≤ 0)
    (h : Nat) (hg : Good al (startSt al h)) :
    (followRes al h).pos_a + (followRes al h).len_a = h % al.score_width := by
  have hmem := finalSt_mem al (startSt al h)
  have hxle := (trace_mem al hgo hge _ (Or.inl hg) _ hmem).2.2.1
  show (finalSt al (startSt al h)).x +
    ((startSt al h).x - (finalSt al (startSt al h)).x) = h % al.score_width
  have hsx : (startSt al h).x = h % al.score_width := rfl
  omega

/-- On a freshly primed session with at least one hit, the first fetch
returns the alignment of the top sorted hit. -/
theorem run_first (a b : List Char) (sc : scoring_t)
    (hgo : sc.gap_open ≤ 0) (hge : sc.gap_extend ≤ 0) (n : Nat) (hn : 1 ≤ n)
    (hne : 0 < (smith_waterman_align2 a b sc).history.sorted_match_indices.length) :
    ∃ rest, (runFetchP (smith_waterman_align2 a b sc) n).1 =
      (followRes (⟨a, b, sc⟩ : aligner_t)
         ((smith_waterman_align2 a b sc).history.sorted_match_indices.getD 0 0),
       (smith_waterman_align2 a b sc).history.sorted_match_indices.getD 0 0) :: rest := by
  rcases n with _ | m
  · omega
  · rw [runFetchP_succ_front, fetchP_eq]
    dsimp only
    have hfuel : (smith_waterman_align2 a b sc).history.sorted_match_indices.length -
        (smith_waterman_align2 a b sc).history.next_hit =
        ((smith_waterman_align2 a b sc).history.sorted_match_indices.length - 1) + 1 := by
      rw [align2_next]
      omega
    have hfirst := fetchGo_first (⟨a, b, sc⟩ : aligner_t) hgo hge
      (smith_waterman_align2 a b sc).history.sorted_match_indices
      (fun h hh => (align2_sorted_mem a b sc h).mp hh) hne
      ((smith_waterman_align2 a b sc).history.sorted_match_indices.length - 1)
    have heq : fetchGo (smith_waterman_align2 a b sc).aligner
        (smith_waterman_align2 a b sc).history.sorted_match_indices
        ((smith_waterman_align2 a b sc).history.sorted_match_indices.length -
          (smith_waterman_align2 a b sc).history.next_hit)
        (smith_waterman_align2 a b sc).history.match_scores_mask
        (smith_waterman_align2 a b sc).history.next_hit =
        (some (followRes (⟨a, b, sc⟩ : aligner_t)
            ((smith_waterman_align2 a b sc).history.sorted_match_indices.getD 0 0),
          (smith_waterman_align2 a b sc).history.sorted_match_indices.getD 0 0),
         maskClear (List.replicate ((⟨a, b, sc⟩ : aligner_t).score_width *
            (⟨a, b, sc⟩ : aligner_t).score_height) true)
           (hitCells (⟨a, b, sc⟩ : aligner_t)
             ((smith_waterman_align2 a b sc).history.sorted_match_indices.getD 0 0)), 1) := by
      rw [hfuel]
      exact hfirst
    rw [heq]
    exact ⟨(runFetchP _ m).1, rfl⟩

/-
 Part 9: per-column score recomputation (reference function for the
 score-preservation property) and the round-trip of the emitted rows.
-/


theorem recompute_go_cons (sc : scoring_t) (x y : Char) (as bs : List Char) (g : GapSt) :
    recompute_go sc (x :: as) (y :: bs) g =
      ((colStep sc x y g).1 + (recompute_go sc as bs (colStep sc x y g).2).1,
       (recompute_go sc as bs (colStep sc x y g).2).2) := rfl

theorem recompute_go_nil (sc : scoring_t) (g : GapSt) :
    recompute_go sc [] [] g = (0, g) := rfl

theorem recompute_go_append (sc : scoring_t) :
    ∀ (l l' : List Char) (c c' : Char) (g : GapSt), l.length = l'.length →
      recompute_go sc (l ++ [c]) (l' ++ [c']) g =
        ((recompute_go sc l l' g).1 +
          (colStep sc c c' (recompute_go sc l l' g).2).1,
         (colStep sc c c' (recompute_go sc l l' g).2).2) := by
  intro l
  induction l with
  | nil =>
    intro l' c c' g hlen
    have : l' = [] := List.length_eq_zero.mp hlen.symm
    subst this
    show recompute_go sc [c] [c'] g = _
    rw [recompute_go_cons, recompute_go_nil, recompute_go_nil]
    rw [Prod.ext_iff]
    dsimp only
    exact ⟨by omega, rfl⟩
  | cons x xs ih =>
    intro l' c c' g hlen
    rcases l' with _ | ⟨y, ys⟩
    · simp at hlen
    · have hlen' : xs.length = ys.length := by simpa using hlen
      rw [List.cons_append, List.cons_append, recompute_go_cons,
          ih ys c c' (colStep sc x y g).2 hlen', recompute_go_cons]
      rw [Prod.ext_iff]
      dsimp only
      exact ⟨by omega, rfl⟩

theorem getD_mem_gen {α : Type} (l : List α) (i : Nat) (d : α) (h : i < l.length) :
    l.getD i d ∈ l := by
  rw [List.getD_eq_getElem?_getD, List.getElem?_eq_getElem h]
  exact List.getElem_mem h

theorem good_xy_one (al : aligner_t) (st : tstate) (hg : Good al st) :
    1 ≤ st.x ∧ 1 ≤ st.y := by
  obtain ⟨hx, hy, hsc, hpos⟩ := hg
  rcases hm : st.mat with _ | _ | _
  · refine mval_pos_bounds al st.x st.y ?_
    have h2 : st.score = (al.cell st.x st.y).1 := by rw [hsc, hm]; rfl
    omega
  · refine gaval_pos_bounds al st.x st.y ?_
    have h2 : st.score = (al.cell st.x st.y).2.1 := by rw [hsc, hm]; rfl
    omega
  · refine gbval_pos_bounds al st.x st.y ?_
    have h2 : st.score = (al.cell st.x st.y).2.2 := by rw [hsc, hm]; rfl
    omega

theorem colA_mem (al : aligner_t) (st : tstate) (hg : Good al st)
    (hm : st.mat ≠ Mat.GAP_A) : colA al st ∈ al.seq_a := by
  have hx1 := (good_xy_one al st hg).1
  have hxW := hg.1
  have hidx : st.x - 1 < al.seq_a.length := by
    unfold aligner_t.score_width at hxW
    omega
  have hc : colA al st = al.seq_a.getD (st.x - 1) ' ' := by
    unfold colA
    rcases hmm : st.mat with _ | _ | _
    · rfl
    · exact absurd hmm hm
    · rfl
  rw [hc]
  exact getD_mem_gen _ _ _ hidx

theorem colB_mem (al : aligner_t) (st : tstate) (hg : Good al st)
    (hm : st.mat ≠ Mat.GAP_B) : colB al st ∈ al.seq_b := by
  have hy1 := (good_xy_one al st hg).2
  have hyH := hg.2.1
  have hidx : st.y - 1 < al.seq_b.length := by
    unfold aligner_t.score_height at hyH
    omega
  have hc : colB al st = al.seq_b.getD (st.y - 1) ' ' := by
    unfold colB
    rcases hmm : st.mat with _ | _ | _
    · rfl
    · rfl
    · exact absurd hmm hm
  rw [hc]
  exact getD_mem_gen _ _ _ hidx

/-- The left-to-right recomputation of the emitted rows of a traceback
recovers the starting score, and ends in the gap state of the starting
column. -/
theorem recompute_trace (al : aligner_t)
    (hgo : al.scoring.gap_open ≤ 0) (hge : al.scoring.gap_extend ≤ 0)
    (hA : '-' ∉ al.seq_a) (hB : '-' ∉ al.seq_b) :
    ∀ st, Good al st ∨ Final al st → Good al st →
      recompute_go al.scoring (stringA al st) (stringB al st) GapSt.noGap =
        (st.score, matGap st.mat) := by
  refine trace_rec al hgo hge _ ?_ ?_
  · intro st hf hg
    exfalso
    have h1 := hf.2.1
    have h2 := hg.2.2.2
    omega
  · intro st hg' hgf ih hg
    rw [stringA_cons al hgo hge st hg, stringB_cons al hgo hge st hg]
    rcases hgf with hgf | hgf
    · -- predecessor still live
      rw [recompute_go_append al.scoring _ _ _ _ _
          (by rw [stringA_length, stringB_length]), ih hgf]
      rcases hm : st.mat with _ | _ | _
      · obtain ⟨_, _, _, _, _, hsc⟩ := step_match al st hg hm
        have hcA : colA al st = al.seq_a.getD (st.x - 1) ' ' := by
          unfold colA
          rw [hm]
        have hcB : colB al st = al.seq_b.getD (st.y - 1) ' ' := by
          unfold colB
          rw [hm]
        have hnA : ¬ colA al st = '-' := by
          intro hcon
          exact hA (hcon ▸ colA_mem al st hg (by rw [hm]; intro hx; exact Mat.noConfusion hx))
        have hnB : ¬ colB al st = '-' := by
          intro hcon
          exact hB (hcon ▸ colB_mem al st hg (by rw [hm]; intro hx; exact Mat.noConfusion hx))
        unfold colStep
        rw [if_neg hnA, if_neg hnB]
        rw [Prod.ext_iff]
        dsimp only
        refine ⟨?_, rfl⟩
        rw [hcA, hcB]
        omega
      · obtain ⟨_, _, _, _, _, hdisj⟩ := step_gap_a al st hg hgo hge hm
        have hcA : colA al st = '-' := by
          unfold colA
          rw [hm]
        unfold colStep
        rw [if_pos hcA]
        rw [Prod.ext_iff]
        dsimp only
        refine ⟨?_, rfl⟩
        rcases hdisj with ⟨hmm, hs⟩ | ⟨hmm, hs⟩
        · rw [hmm]
          simp only [matGap]
          rw [if_neg (by intro hx; exact GapSt.noConfusion hx)]
          omega
        · rw [hmm]
          simp only [matGap]
          simp only [if_true]
          omega
      · obtain ⟨_, _, _, _, _, hdisj⟩ := step_gap_b al st hg hgo hge hm
        have hcA : ¬ colA al st = '-' := by
          intro hcon
          exact hA (hcon ▸ colA_mem al st hg (by rw [hm]; intro hx; exact Mat.noConfusion hx))
        have hcB : colB al st = '-' := by
          unfold colB
          rw [hm]
        unfold colStep
        rw [if_neg hcA, if_pos hcB]
        rw [Prod.ext_iff]
        dsimp only
        refine ⟨?_, rfl⟩
        rcases hdisj with ⟨hmm, hs⟩ | ⟨hmm, hs⟩
        · rw [hmm]
          simp only [matGap]
          rw [if_neg (by intro hx; exact GapSt.noConfusion hx)]
          omega
        · rw [hmm]
          simp only [matGap]
          simp only [if_true]
          omega
    · -- predecessor terminated: single column, necessarily a match
      have hmM : st.mat = Mat.MATCH := by
        rcases hm : st.mat with _ | _ | _
        · rfl
        · obtain ⟨hgood, _⟩ := step_gap_a al st hg hgo hge hm
          exfalso
          have h1 := hgf.2.1
          have h2 := hgood.2.2.2
          omega
        · obtain ⟨hgood, _⟩ := step_gap_b al st hg hgo hge hm
          exfalso
          have h1 := hgf.2.1
          have h2 := hgood.2.2.2
          omega
      rw [stringA_of_final al _ hgf, stringB_of_final al _ hgf]
      obtain ⟨_, _, _, _, _, hsc⟩ := step_match al st hg hmM
      have hcA : colA al st = al.seq_a.getD (st.x - 1) ' ' := by
        unfold colA
        rw [hmM]
      have hcB : colB al st = al.seq_b.getD (st.y - 1) ' ' := by
        unfold colB
        rw [hmM]
      have hnA : ¬ colA al st = '-' := by
        intro hcon
        exact hA (hcon ▸ colA_mem al st hg (by rw [hmM]; intro hx; exact Mat.noConfusion hx))
      have hnB : ¬ colB al st = '-' := by
        intro hcon
        exact hB (hcon ▸ colB_mem al st hg (by rw [hmM]; intro hx; exact Mat.noConfusion hx))
      show recompute_go al.scoring [colA al st] [colB al st] GapSt.noGap = _
      rw [recompute_go_cons, recompute_go_nil]
      unfold colStep
      rw [if_neg hnA, if_neg hnB]
      rw [Prod.ext_iff]
      dsimp only
      refine ⟨?_, by rw [hmM]; rfl⟩
      rw [hcA, hcB]
      have hfin0 := hgf.2.1
      omega

/-
 Part 10: the round-trip of the emitted rows and the bookend columns.
-/


theorem strip_dashes_append (u v : List Char) :
    strip_dashes (u ++ v) = strip_dashes u ++ strip_dashes v := by
  unfold strip_dashes
  rw [List.filter_append]

theorem strip_dashes_single_ne (c : Char) (h : c ≠ '-') :
    strip_dashes [c] = [c] := by
  simp [strip_dashes, h]

theorem strip_dashes_dash : strip_dashes ['-'] = [] := rfl

theorem getD_drop_gen {α : Type} (l : List α) (n k : Nat) (d : α) :
    (l.drop n).getD k d = l.getD (n + k) d := by
  rw [List.getD_eq_getElem?_getD, List.getD_eq_getElem?_getD, List.getElem?_drop]

theorem take_succ_getD_gen {α : Type} (l : List α) (j : Nat) (d : α) (h : j < l.length) :
    l.take (j + 1) = l.take j ++ [l.getD j d] := by
  rw [List.take_succ, List.getElem?_eq_getElem h, List.getD_eq_getElem?_getD,
      List.getElem?_eq_getElem h]
  rfl

theorem seg_succ {α : Type} (l : List α) (f k : Nat) (d : α) (h : f + k < l.length) :
    (l.drop f).take (k + 1) = (l.drop f).take k ++ [l.getD (f + k) d] := by
  rw [take_succ_getD_gen (l.drop f) k d (by rw [List.length_drop]; omega), getD_drop_gen]

/-- Stripping the dashes from `result_a` of a traceback recovers the
consumed segment of sequence A (when A itself holds no dash byte). -/
theorem stringA_strip (al : aligner_t)
    (hgo : al.scoring.gap_open ≤ 0) (hge : al.scoring.gap_extend ≤ 0)
    (hA : '-' ∉ al.seq_a) :
    ∀ st, Good al st ∨ Final al st →
      strip_dashes (stringA al st) =
        (al.seq_a.drop (finalSt al st).x).take (st.x - (finalSt al st).x) := by
  refine trace_rec al hgo hge _ ?_ ?_
  · intro st hf
    rw [stringA_of_final al st hf, finalSt_of_final al st hf, Nat.sub_self]
    rfl
  · intro st hg hgf ih
    rw [stringA_cons al hgo hge st hg, strip_dashes_append, ih,
        finalSt_cons al hgo hge st hg]
    have hfle : (finalSt al (alignment_reverse_move al st)).x ≤
        (alignment_reverse_move al st).x :=
      (trace_mem al hgo hge _ hgf _ (finalSt_mem al _)).2.2.1
    have hxW : st.x < al.seq_a.length + 1 := hg.1
    rcases hm : st.mat with _ | _ | _
    · obtain ⟨_, hx', _, hx1, _, _⟩ := step_match al st hg hm
      have hcA : colA al st = al.seq_a.getD (st.x - 1) ' ' := by
        unfold colA
        rw [hm]
      have hnA : colA al st ≠ '-' := fun hcon =>
        hA (hcon ▸ colA_mem al st hg (by rw [hm]; decide))
      rw [hcA] at hnA ⊢
      rw [strip_dashes_single_ne _ hnA,
          show st.x - (finalSt al (alignment_reverse_move al st)).x =
            ((alignment_reverse_move al st).x -
              (finalSt al (alignment_reverse_move al st)).x) + 1 from by omega,
          seg_succ al.seq_a (finalSt al (alignment_reverse_move al st)).x
            ((alignment_reverse_move al st).x -
              (finalSt al (alignment_reverse_move al st)).x) ' ' (by omega),
          show (finalSt al (alignment_reverse_move al st)).x +
            ((alignment_reverse_move al st).x -
              (finalSt al (alignment_reverse_move al st)).x) = st.x - 1 from by omega]
    · obtain ⟨_, hx', _, _, _, _⟩ := step_gap_a al st hg hgo hge hm
      have hcA : colA al st = '-' := by
        unfold colA
        rw [hm]
      rw [hcA, strip_dashes_dash, List.append_nil, hx']
    · obtain ⟨_, hx', _, hx1, _, _⟩ := step_gap_b al st hg hgo hge hm
      have hcA : colA al st = al.seq_a.getD (st.x - 1) ' ' := by
        unfold colA
        rw [hm]
      have hnA : colA al st ≠ '-' := fun hcon =>
        hA (hcon ▸ colA_mem al st hg (by rw [hm]; decide))
      rw [hcA] at hnA ⊢
      rw [strip_dashes_single_ne _ hnA,
          show st.x - (finalSt al (alignment_reverse_move al st)).x =
            ((alignment_reverse_move al st).x -
              (finalSt al (alignment_reverse_move al st)).x) + 1 from by omega,
          seg_succ al.seq_a (finalSt al (alignment_reverse_move al st)).x
            ((alignment_reverse_move al st).x -
              (finalSt al (alignment_reverse_move al st)).x) ' ' (by omega),
          show (finalSt al (alignment_reverse_move al st)).x +
            ((alignment_reverse_move al st).x -
              (finalSt al (alignment_reverse_move al st)).x) = st.x - 1 from by omega]

/-- Stripping the dashes from `result_b` of a traceback recovers the
consumed segment of sequence B (when B itself holds no dash byte). -/
theorem stringB_strip (al : aligner_t)
    (hgo : al.scoring.gap_open ≤ 0) (hge : al.scoring.gap_extend ≤ 0)
    (hB : '-' ∉ al.seq_b) :
    ∀ st, Good al st ∨ Final al st →
      strip_dashes (stringB al st) =
        (al.seq_b.drop (finalSt al st).y).take (st.y - (finalSt al st).y) := by
  refine trace_rec al hgo hge _ ?_ ?_
  · intro st hf
    rw [stringB_of_final al st hf, finalSt_of_final al st hf, Nat.sub_self]
    rfl
  · intro st hg hgf ih
    rw [stringB_cons al hgo hge st hg, strip_dashes_append, ih,
        finalSt_cons al hgo hge st hg]
    have hfle : (finalSt al (alignment_reverse_move al st)).y ≤
        (alignment_reverse_move al st).y :=
      (trace_mem al hgo hge _ hgf _ (finalSt_mem al _)).2.2.2
    have hyH : st.y < al.seq_b.length + 1 := hg.2.1
    rcases hm : st.mat with _ | _ | _
    · obtain ⟨_, _, hy', _, hy1, _⟩ := step_match al st hg hm
      have hcB : colB al st = al.seq_b.getD (st.y - 1) ' ' := by
        unfold colB
        rw [hm]
      have hnB : colB al st ≠ '-' := fun hcon =>
        hB (hcon ▸ colB_mem al st hg (by rw [hm]; decide))
      rw [hcB] at hnB ⊢
      rw [strip_dashes_single_ne _ hnB,
          show st.y - (finalSt al (alignment_reverse_move al st)).y =
            ((alignment_reverse_move al st).y -
              (finalSt al (alignment_reverse_move al st)).y) + 1 from by omega,
          seg_succ al.seq_b (finalSt al (alignment_reverse_move al st)).y
            ((alignment_reverse_move al st).y -
              (finalSt al (alignment_reverse_move al st)).y) ' ' (by omega),
          show (finalSt al (alignment_reverse_move al st)).y +
            ((alignment_reverse_move al st).y -
              (finalSt al (alignment_reverse_move al st)).y) = st.y - 1 from by omega]
    · obtain ⟨_, _, hy', _, hy1, _⟩ := step_gap_a al st hg hgo hge hm
      have hcB : colB al st = al.seq_b.getD (st.y - 1) ' ' := by
        unfold colB
        rw [hm]
      have hnB : colB al st ≠ '-' := fun hcon =>
        hB (hcon ▸ colB_mem al st hg (by rw [hm]; decide))
      rw [hcB] at hnB ⊢
      rw [strip_dashes_single_ne _ hnB,
          show st.y - (finalSt al (alignment_reverse_move al st)).y =
            ((alignment_reverse_move al st).y -
              (finalSt al (alignment_reverse_move al st)).y) + 1 from by omega,
          seg_succ al.seq_b (finalSt al (alignment_reverse_move al st)).y
            ((alignment_reverse_move al st).y -
              (finalSt al (alignment_reverse_move al st)).y) ' ' (by omega),
          show (finalSt al (alignment_reverse_move al st)).y +
            ((alignment_reverse_move al st).y -
              (finalSt al (alignment_reverse_move al st)).y) = st.y - 1 by omega]
    · obtain ⟨_, _, hy', _, _, _⟩ := step_gap_b al st hg hgo hge hm
      have hcB : colB al st = '-' := by
        unfold colB
        rw [hm]
      rw [hcB, strip_dashes_dash, List.append_nil, hy']

theorem getD_append_lt {α : Type} : ∀ (u v : List α) (i : Nat) (d : α), i < u.length →
    (u ++ v).getD i d = u.getD i d := by
  intro u
  induction u with
  | nil =>
    intro v i d h
    simp at h
  | cons x xs ih =>
    intro v i d h
    cases i with
    | zero => rfl
    | succ i =>
      show (xs ++ v).getD i d = xs.getD i d
      exact ih v i d (by simpa using h)

theorem getD_append_length {α : Type} : ∀ (u : List α) (c d : α),
    (u ++ [c]).getD u.length d = c := by
  intro u
  induction u with
  | nil => intro c d; rfl
  | cons x xs ih => intro c d; exact ih c d

/-- The last emitted column of a traceback is the column of its top
(end) cursor. -/
theorem stringA_last (al : aligner_t)
    (hgo : al.scoring.gap_open ≤ 0) (hge : al.scoring.gap_extend ≤ 0)
    (st : tstate) (hg : Good al st) :
    (stringA al st).getD ((stringA al st).length - 1) ' ' = colA al st := by
  rw [stringA_cons al hgo hge st hg]
  have hlen : (stringA al (alignment_reverse_move al st) ++ [colA al st]).length - 1 =
      (stringA al (alignment_reverse_move al st)).length := by
    rw [List.length_append]
    simp
  rw [hlen]
  exact getD_append_length _ _ _

theorem stringB_last (al : aligner_t)
    (hgo : al.scoring.gap_open ≤ 0) (hge : al.scoring.gap_extend ≤ 0)
    (st : tstate) (hg : Good al st) :
    (stringB al st).getD ((stringB al st).length - 1) ' ' = colB al st := by
  rw [stringB_cons al hgo hge st hg]
  have hlen : (stringB al (alignment_reverse_move al st) ++ [colB al st]).length - 1 =
      (stringB al (alignment_reverse_move al st)).length := by
    rw [List.length_append]
    simp
  rw [hlen]
  exact getD_append_length _ _ _

/-- The first emitted column of a traceback is never a gap column: the
deepest positive cursor is a match (a gap cursor cannot step to the
terminated score-0 cursor). -/
theorem string_heads (al : aligner_t)
    (hgo : al.scoring.gap_open ≤ 0) (hge : al.scoring.gap_extend ≤ 0)
    (hA : '-' ∉ al.seq_a) (hB : '-' ∉ al.seq_b) :
    ∀ st, Good al st ∨ Final al st → Good al st →
      (stringA al st).getD 0 ' ' ≠ '-' ∧ (stringB al st).getD 0 ' ' ≠ '-' := by
  refine trace_rec al hgo hge _ ?_ ?_
  · intro st hf hg
    exfalso
    have h1 := hf.2.1
    have h2 := hg.2.2.2
    omega
  · intro st hg' hgf ih hg
    rw [stringA_cons al hgo hge st hg, stringB_cons al hgo hge st hg]
    rcases hgf with hgf | hgf
    · have hLA : 1 ≤ (stringA al (alignment_reverse_move al st)).length := by
        rw [stringA_length]
        have := trace_length_two al hgo hge _ hgf
        omega
      have hLB : 1 ≤ (stringB al (alignment_reverse_move al st)).length := by
        rw [stringB_length]
        have := trace_length_two al hgo hge _ hgf
        omega
      rw [getD_append_lt _ _ _ _ (by omega), getD_append_lt _ _ _ _ (by omega)]
      exact ih hgf
    · have hmM : st.mat = Mat.MATCH := by
        rcases hm : st.mat with _ | _ | _
        · rfl
        · obtain ⟨hgood, _⟩ := step_gap_a al st hg hgo hge hm
          exfalso
          have h1 := hgf.2.1
          have h2 := hgood.2.2.2
          omega
        · obtain ⟨hgood, _⟩ := step_gap_b al st hg hgo hge hm
          exfalso
          have h1 := hgf.2.1
          have h2 := hgood.2.2.2
          omega
      rw [stringA_of_final al _ hgf, stringB_of_final al _ hgf]
      simp only [List.nil_append]
      constructor
      · show colA al st ≠ '-'
        exact fun hcon => hA (hcon ▸ colA_mem al st hg (by rw [hmM]; decide))
      · show colB al st ≠ '-'
        exact fun hcon => hB (hcon ▸ colB_mem al st hg (by rw [hmM]; decide))

/-
 Part 11: closed-form facts about a returned alignment record.
-/

theorem followRes_take_a (al : aligner_t) (h : Nat) :
    (followRes al h).result_a.take (followRes al h).length =
      stringA al (startSt al h) := by
  show (stringA al (startSt al h) ++ ['\x00']).take
    ((trace al (startSt al h)).length - 1) = _
  rw [← stringA_length al (startSt al h)]
  exact List.take_left _ _

theorem followRes_take_b (al : aligner_t) (h : Nat) :
    (followRes al h).result_b.take (followRes al h).length =
      stringB al (startSt al h) := by
  show (stringB al (startSt al h) ++ ['\x00']).take
    ((trace al (startSt al h)).length - 1) = _
  rw [← stringB_length al (startSt al h)]
  exact List.take_left _ _

/-- A returned record's rows, stripped of their dashes, are exactly the
consumed segments of the inputs. -/
theorem followRes_strip (al : aligner_t)
    (hgo : al.scoring.gap_open ≤ 0) (hge : al.scoring.gap_extend ≤ 0)
    (hA : '-' ∉ al.seq_a) (hB : '-' ∉ al.seq_b)
    (h : Nat) (hg : Good al (startSt al h)) :
    strip_dashes ((followRes al h).result_a.take (followRes al h).length) =
      (al.seq_a.drop (followRes al h).pos_a).take (followRes al h).len_a ∧
    strip_dashes ((followRes al h).result_b.take (followRes al h).length) =
      (al.seq_b.drop (followRes al h).pos_b).take (followRes al h).len_b := by
  have e3 : (followRes al h).pos_a = (finalSt al (startSt al h)).x := rfl
  have e3b : (followRes al h).pos_b = (finalSt al (startSt al h)).y := rfl
  have e4 : (followRes al h).len_a =
      (startSt al h).x - (finalSt al (startSt al h)).x := rfl
  have e4b : (followRes al h).len_b =
      (startSt al h).y - (finalSt al (startSt al h)).y := rfl
  constructor
  · rw [followRes_take_a, e3, e4]
    exact stringA_strip al hgo hge hA _ (Or.inl hg)
  · rw [followRes_take_b, e3b, e4b]
    exact stringB_strip al hgo hge hB _ (Or.inl hg)

/-- A returned record's score is also the left-to-right recomputation of
its emitted rows. -/
theorem followRes_recompute (al : aligner_t)
    (hgo : al.scoring.gap_open ≤ 0) (hge : al.scoring.gap_extend ≤ 0)
    (hA : '-' ∉ al.seq_a) (hB : '-' ∉ al.seq_b)
    (h : Nat) (hg : Good al (startSt al h)) :
    recompute_score al.scoring
        ((followRes al h).result_a.take (followRes al h).length)
        ((followRes al h).result_b.take (followRes al h).length) =
      (followRes al h).score := by
  unfold recompute_score
  rw [followRes_take_a, followRes_take_b,
      recompute_trace al hgo hge hA hB (startSt al h) (Or.inl hg) hg]
  rfl

/-- A returned record's first and last columns are symbol columns. -/
theorem followRes_bookends (al : aligner_t)
    (hgo : al.scoring.gap_open ≤ 0) (hge : al.scoring.gap_extend ≤ 0)
    (hA : '-' ∉ al.seq_a) (hB : '-' ∉ al.seq_b)
    (h : Nat) (hg : Good al (startSt al h)) :
    1 ≤ (followRes al h).length ∧
    (followRes al h).result_a.getD 0 ' ' ≠ '-' ∧
    (followRes al h).result_b.getD 0 ' ' ≠ '-' ∧
    (followRes al h).result_a.getD ((followRes al h).length - 1) ' ' ≠ '-' ∧
    (followRes al h).result_b.getD ((followRes al h).length - 1) ' ' ≠ '-' := by
  have e2 : (followRes al h).length = (trace al (startSt al h)).length - 1 := rfl
  have hL2 := trace_length_two al hgo hge _ hg
  have hLA := stringA_length al (startSt al h)
  have hLB := stringB_length al (startSt al h)
  refine ⟨by rw [e2]; omega, ?_, ?_, ?_, ?_⟩
  · show (stringA al (startSt al h) ++ ['\x00']).getD 0 ' ' ≠ '-'
    rw [getD_append_lt _ _ _ _ (by omega)]
    exact (string_heads al hgo hge hA hB _ (Or.inl hg) hg).1
  · show (stringB al (startSt al h) ++ ['\x00']).getD 0 ' ' ≠ '-'
    rw [getD_append_lt _ _ _ _ (by omega)]
    exact (string_heads al hgo hge hA hB _ (Or.inl hg) hg).2
  · show (stringA al (startSt al h) ++ ['\x00']).getD
      ((followRes al h).length - 1) ' ' ≠ '-'
    rw [e2, getD_append_lt _ _ _ _ (by omega),
        show (trace al (startSt al h)).length - 1 - 1 =
          (stringA al (startSt al h)).length - 1 from by omega,
        stringA_last al hgo hge _ hg]
    exact fun hcon => hA (hcon ▸ colA_mem al (startSt al h) hg
      (by show Mat.MATCH ≠ Mat.GAP_A; decide))
  · show (stringB al (startSt al h) ++ ['\x00']).getD
      ((followRes al h).length - 1) ' ' ≠ '-'
    rw [e2, getD_append_lt _ _ _ _ (by omega),
        show (trace al (startSt al h)).length - 1 - 1 =
          (stringB al (startSt al h)).length - 1 from by omega,
        stringB_last al hgo hge _ hg]
    exact fun hcon => hB (hcon ▸ colB_mem al (startSt al h) hg
      (by show Mat.MATCH ≠ Mat.GAP_B; decide))

/-- A returned record's buffers have room for the NUL byte, carry it at
index `length`, and the emit pass wrote exactly the descending indices
`length-1, …, 0`. -/
theorem followRes_buffers (al : aligner_t)
    (hgo : al.scoring.gap_open ≤ 0) (hge : al.scoring.gap_extend ≤ 0)
    (h : Nat) (hg : Good al (startSt al h)) :
    1 ≤ (followRes al h).length ∧
    (followRes al h).result_a.length = (followRes al h).length + 1 ∧
    (followRes al h).result_b.length = (followRes al h).length + 1 ∧
    (followRes al h).result_a.getD (followRes al h).length ' ' = '\x00' ∧
    (followRes al h).result_b.getD (followRes al h).length ' ' = '\x00' ∧
    (emitLoop al ((startSt al h).pos al + 1) (startSt al h)
        ((followRes al h).length - 1)
        (List.replicate ((followRes al h).length + 1) ' ')
        (List.replicate ((followRes al h).length + 1) ' ') []).2.2.1 =
      (List.range (followRes al h).length).reverse := by
  have e2 : (followRes al h).length = (trace al (startSt al h)).length - 1 := rfl
  have hL2 := trace_length_two al hgo hge _ hg
  have hLle := trace_length_le al hgo hge _ (Or.inl hg)
  have hLA := stringA_length al (startSt al h)
  have hLB := stringB_length al (startSt al h)
  refine ⟨by rw [e2]; omega, ?_, ?_, ?_, ?_, ?_⟩
  · show (stringA al (startSt al h) ++ ['\x00']).length = (followRes al h).length + 1
    rw [List.length_append, hLA, e2]
    rfl
  · show (stringB al (startSt al h) ++ ['\x00']).length = (followRes al h).length + 1
    rw [List.length_append, hLB, e2]
    rfl
  · show (stringA al (startSt al h) ++ ['\x00']).getD (followRes al h).length ' ' = '\x00'
    rw [e2, ← hLA]
    exact getD_append_length _ _ _
  · show (stringB al (startSt al h) ++ ['\x00']).getD (followRes al h).length ' ' = '\x00'
    rw [e2, ← hLB]
    exact getD_append_length _ _ _
  · have hE := emit_eq al hgo hge (startSt al h) (Or.inl hg)
      ((startSt al h).pos al + 1)
      ((trace al (startSt al h)).length - 1 - 1)
      (List.replicate ((trace al (startSt al h)).length - 1 + 1) ' ')
      (List.replicate ((trace al (startSt al h)).length - 1 + 1) ' ') []
      (by omega) (by omega)
      (by rw [List.length_replicate]; omega) (by rw [List.length_replicate]; omega)
    show (emitLoop al ((startSt al h).pos al + 1) (startSt al h)
        ((trace al (startSt al h)).length - 1 - 1)
        (List.replicate ((trace al (startSt al h)).length - 1 + 1) ' ')
        (List.replicate ((trace al (startSt al h)).length - 1 + 1) ' ') []).2.2.1 =
      (List.range (followRes al h).length).reverse
    rw [hE]
    show [] ++ (List.range ((trace al (startSt al h)).length - 1)).reverse = _
    rw [List.nil_append, e2]

/-
 Part 12: the claimed properties.
-/



theorem runFetch_succ (sw : sw_aligner_t) (n : Nat) :
    runFetch sw (n + 1) =
      ((smith_waterman_fetch sw).1.toList ++ (runFetch (smith_waterman_fetch sw).2 n).1,
       (runFetch (smith_waterman_fetch sw).2 n).2) := rfl

/-- C1: after one align, the first alignment a fetch sequence returns
scores the global maximum of the match matrix, the returned scores are
non-increasing, and equal scores are returned in ascending end-cell
x-coordinate (`pos_a + len_a`). -/
theorem claim_C1 (a b : List Char) (sc : scoring_t)
    (hgo : sc.gap_open ≤ 0) (hge : sc.gap_extend ≤ 0) (n : Nat)
    (o : alignment_t × Nat) (rest : List (alignment_t × Nat))
    (hout : (runFetchP (smith_waterman_align2 a b sc) n).1 = o :: rest) :
    (∀ p, p < (⟨a, b, sc⟩ : aligner_t).score_width *
        (⟨a, b, sc⟩ : aligner_t).score_height →
      (⟨a, b, sc⟩ : aligner_t).match_scores p ≤ o.1.score) ∧
    (runFetchP (smith_waterman_align2 a b sc) n).1.Pairwise
      (fun u v => v.1.score ≤ u.1.score ∧
        (v.1.score = u.1.score → u.1.pos_a + u.1.len_a ≤ v.1.pos_a + v.1.len_a)) := by
  obtain ⟨i1, i2, i3, i4, i5, i6, i7⟩ := run_inv a b sc hgo hge n
  have ho : o ∈ (runFetchP (smith_waterman_align2 a b sc) n).1 := by
    rw [hout]
    exact List.mem_cons_self _ _
  obtain ⟨hof, hoS⟩ := i5 o ho
  constructor
  · have hne : 0 < (smith_waterman_align2 a b sc).history.sorted_match_indices.length :=
      List.length_pos.mpr (List.ne_nil_of_mem hoS)
    have hn1 : 1 ≤ n := by
      rcases n with _ | m
      · rw [runFetchP_zero] at hout
        exact absurd hout (by simp)
      · omega
    obtain ⟨rest₂, hfirst⟩ := run_first a b sc hgo hge n hn1 hne
    rw [hout] at hfirst
    injection hfirst with h1 _
    intro p hpW
    by_cases hp : 0 < (⟨a, b, sc⟩ : aligner_t).match_scores p
    · have hpS : p ∈ (smith_waterman_align2 a b sc).history.sorted_match_indices :=
        (align2_sorted_mem a b sc p).mpr ⟨hpW, hp⟩
      have hpair := align2_sorted_pairwise a b sc
      rcases hScons : (smith_waterman_align2 a b sc).history.sorted_match_indices with
        _ | ⟨s0, tl⟩
      · rw [hScons] at hoS
        simp at hoS
      · have hgd : (smith_waterman_align2 a b sc).history.sorted_match_indices.getD 0 0 =
            s0 := by
          rw [hScons]
          rfl
        rw [hScons] at hpair hpS
        have hle : (⟨a, b, sc⟩ : aligner_t).match_scores p ≤
            (⟨a, b, sc⟩ : aligner_t).match_scores s0 := by
          rcases List.mem_cons.mp hpS with hp0 | hptl
          · subst hp0
            exact le_rfl
          · have hsw := (List.pairwise_cons.mp hpair).1 p hptl
            rcases (swRel_iff (⟨a, b, sc⟩ : aligner_t) s0 p).mp hsw with hlt | ⟨heq, _⟩
            · omega
            · omega
        rw [h1, hgd]
        exact hle
    · have hple : (⟨a, b, sc⟩ : aligner_t).match_scores p ≤ 0 := by omega
      have hb := (align2_sorted_mem a b sc o.2).mp hoS
      have hsc : o.1.score = (⟨a, b, sc⟩ : aligner_t).match_scores o.2 := by
        rw [hof]
        rfl
      have hpos := hb.2
      omega
  · have htake : List.Sublist
        ((runFetchP (smith_waterman_align2 a b sc) n).1.map Prod.snd)
        (smith_waterman_align2 a b sc).history.sorted_match_indices :=
      i4.trans (List.take_sublist _ _)
    have hp1 : ((runFetchP (smith_waterman_align2 a b sc) n).1.map Prod.snd).Pairwise
        (swRel (⟨a, b, sc⟩ : aligner_t)) :=
      (align2_sorted_pairwise a b sc).sublist htake
    have hp2 : (runFetchP (smith_waterman_align2 a b sc) n).1.Pairwise
        (fun u v => swRel (⟨a, b, sc⟩ : aligner_t) u.2 v.2) :=
      List.pairwise_map.mp hp1
    refine hp2.imp_of_mem ?_
    intro u v hu hv hr
    obtain ⟨huf, huS⟩ := i5 u hu
    obtain ⟨hvf, hvS⟩ := i5 v hv
    have hub := (align2_sorted_mem a b sc u.2).mp huS
    have hvb := (align2_sorted_mem a b sc v.2).mp hvS
    have hgu : Good (⟨a, b, sc⟩ : aligner_t) (startSt (⟨a, b, sc⟩ : aligner_t) u.2) :=
      good_start _ _ hub.1 hub.2
    have hgv : Good (⟨a, b, sc⟩ : aligner_t) (startSt (⟨a, b, sc⟩ : aligner_t) v.2) :=
      good_start _ _ hvb.1 hvb.2
    have hsu : u.1.score = (⟨a, b, sc⟩ : aligner_t).match_scores u.2 := by
      rw [huf]
      rfl
    have hsv : v.1.score = (⟨a, b, sc⟩ : aligner_t).match_scores v.2 := by
      rw [hvf]
      rfl
    have heu : u.1.pos_a + u.1.len_a = u.2 % (⟨a, b, sc⟩ : aligner_t).score_width := by
      rw [huf]
      exact followRes_end_x _ hgo hge u.2 hgu
    have hev : v.1.pos_a + v.1.len_a = v.2 % (⟨a, b, sc⟩ : aligner_t).score_width := by
      rw [hvf]
      exact followRes_end_x _ hgo hge v.2 hgv
    rcases (swRel_iff (⟨a, b, sc⟩ : aligner_t) u.2 v.2).mp hr with hlt | ⟨heq, hx⟩
    · exact ⟨by omega, fun hq => by omega⟩
    · exact ⟨by omega, fun hq => by omega⟩

/-- C2: across the alignments one fetch sequence returns after one
align, each carries the closed-form record of its hit, and the traceback
cell sets of distinct returned alignments are pairwise disjoint. -/
theorem claim_C2 (a b : List Char) (sc : scoring_t)
    (hgo : sc.gap_open ≤ 0) (hge : sc.gap_extend ≤ 0) (n : Nat) :
    (∀ o ∈ (runFetchP (smith_waterman_align2 a b sc) n).1,
      o.1 = followRes (⟨a, b, sc⟩ : aligner_t) o.2) ∧
    (runFetchP (smith_waterman_align2 a b sc) n).1.Pairwise
      (fun u v => ∀ c ∈ hitCells (⟨a, b, sc⟩ : aligner_t) u.2,
        c ∉ hitCells (⟨a, b, sc⟩ : aligner_t) v.2) := by
  obtain ⟨_, _, _, _, i5, _, i7⟩ := run_inv a b sc hgo hge n
  exact ⟨fun o ho => (i5 o ho).1, i7⟩

/-- C3: a returned alignment's score is the match-matrix value at its
end cell, and — when the inputs hold no dash byte — also the
left-to-right recomputation of its emitted rows under the same scoring
(lookup on symbol columns, `gap_open`/`gap_extend` on gap runs). -/
theorem claim_C3 (a b : List Char) (sc : scoring_t)
    (hgo : sc.gap_open ≤ 0) (hge : sc.gap_extend ≤ 0)
    (hA : '-' ∉ a) (hB : '-' ∉ b) (n : Nat) :
    ∀ o ∈ (runFetchP (smith_waterman_align2 a b sc) n).1,
      o.1.score = (⟨a, b, sc⟩ : aligner_t).match_scores o.2 ∧
      recompute_score sc (o.1.result_a.take o.1.length)
        (o.1.result_b.take o.1.length) = o.1.score := by
  obtain ⟨_, _, _, _, i5, _, _⟩ := run_inv a b sc hgo hge n
  intro o ho
  obtain ⟨hof, hoS⟩ := i5 o ho
  have hb := (align2_sorted_mem a b sc o.2).mp hoS
  have hg : Good (⟨a, b, sc⟩ : aligner_t) (startSt (⟨a, b, sc⟩ : aligner_t) o.2) :=
    good_start _ _ hb.1 hb.2
  constructor
  · rw [hof]
    rfl
  · rw [hof]
    exact followRes_recompute (⟨a, b, sc⟩ : aligner_t) hgo hge hA hB o.2 hg

/-- C3, counterexample: on the one-byte inputs `"-"`/`"-"` the returned
alignment scores 2 (the dash matches itself in the matrix) but the
recomputation of its emitted rows reads the dash as a gap column and
yields `gap_open = -2`. -/
theorem claim_C3_cex :
    ((runFetchP (smith_waterman_align2 ['-'] ['-'] sc_ex) 1).1.map
      (fun o => (o.1.score,
        recompute_score sc_ex (o.1.result_a.take o.1.length)
          (o.1.result_b.take o.1.length)))) = [(2, -2)] := by decide

/-- C4: when the inputs hold no dash byte, deleting every dash from a
returned `result_a` yields the `len_a`-byte substring of A at offset
`pos_a`, and likewise for B. -/
theorem claim_C4 (a b : List Char) (sc : scoring_t)
    (hgo : sc.gap_open ≤ 0) (hge : sc.gap_extend ≤ 0)
    (hA : '-' ∉ a) (hB : '-' ∉ b) (n : Nat) :
    ∀ o ∈ (runFetchP (smith_waterman_align2 a b sc) n).1,
      strip_dashes (o.1.result_a.take o.1.length) =
        (a.drop o.1.pos_a).take o.1.len_a ∧
      strip_dashes (o.1.result_b.take o.1.length) =
        (b.drop o.1.pos_b).take o.1.len_b := by
  obtain ⟨_, _, _, _, i5, _, _⟩ := run_inv a b sc hgo hge n
  intro o ho
  obtain ⟨hof, hoS⟩ := i5 o ho
  have hb := (align2_sorted_mem a b sc o.2).mp hoS
  have hg : Good (⟨a, b, sc⟩ : aligner_t) (startSt (⟨a, b, sc⟩ : aligner_t) o.2) :=
    good_start _ _ hb.1 hb.2
  rw [hof]
  exact followRes_strip (⟨a, b, sc⟩ : aligner_t) hgo hge hA hB o.2 hg

/-- C4, counterexample: on the inputs `"-"`/`"-"` the returned
`result_a` is the single gap byte, so stripping dashes yields the empty
string while the consumed substring of A is `"-"`. -/
theorem claim_C4_cex :
    ((runFetchP (smith_waterman_align2 ['-'] ['-'] sc_ex) 1).1.map
      (fun o => (strip_dashes (o.1.result_a.take o.1.length),
        (['-'].drop o.1.pos_a).take o.1.len_a))) = [([], ['-'])] := by decide

/-- C5: after align, the sorted hit list holds exactly the positive
match-matrix cells, without duplicates, ordered by descending score with
ties broken by ascending `pos mod score_width`; the consumed-cell bitmap
is all-set and the cursor is 0. -/
theorem claim_C5 (a b : List Char) (sc : scoring_t) :
    (smith_waterman_align2 a b sc).history.match_scores_mask =
      List.replicate ((⟨a, b, sc⟩ : aligner_t).score_width *
        (⟨a, b, sc⟩ : aligner_t).score_height) true ∧
    (smith_waterman_align2 a b sc).history.next_hit = 0 ∧
    (∀ h, h ∈ (smith_waterman_align2 a b sc).history.sorted_match_indices ↔
      (h < (⟨a, b, sc⟩ : aligner_t).score_width *
        (⟨a, b, sc⟩ : aligner_t).score_height ∧
       0 < (⟨a, b, sc⟩ : aligner_t).match_scores h)) ∧
    (smith_waterman_align2 a b sc).history.sorted_match_indices.Nodup ∧
    (smith_waterman_align2 a b sc).history.sorted_match_indices.Pairwise
      (fun p q => (⟨a, b, sc⟩ : aligner_t).match_scores q <
          (⟨a, b, sc⟩ : aligner_t).match_scores p ∨
        ((⟨a, b, sc⟩ : aligner_t).match_scores q =
            (⟨a, b, sc⟩ : aligner_t).match_scores p ∧
         p % (⟨a, b, sc⟩ : aligner_t).score_width ≤
           q % (⟨a, b, sc⟩ : aligner_t).score_width)) := by
  refine ⟨align2_mask a b sc, align2_next a b sc, ?_,
    align2_sorted_nodup a b sc, ?_⟩
  · intro h
    exact align2_sorted_mem a b sc h
  · refine (align2_sorted_pairwise a b sc).imp ?_
    intro p q hpq
    exact (swRel_iff (⟨a, b, sc⟩ : aligner_t) p q).mp hpq

/-- C6: when the inputs hold no dash byte, every returned alignment
begins and ends with a symbol column; the traceback starts in matrix `M`
and terminates at score 0 in matrix `M`. -/
theorem claim_C6 (a b : List Char) (sc : scoring_t)
    (hgo : sc.gap_open ≤ 0) (hge : sc.gap_extend ≤ 0)
    (hA : '-' ∉ a) (hB : '-' ∉ b) (n : Nat) :
    ∀ o ∈ (runFetchP (smith_waterman_align2 a b sc) n).1,
      1 ≤ o.1.length ∧
      o.1.result_a.getD 0 ' ' ≠ '-' ∧
      o.1.result_b.getD 0 ' ' ≠ '-' ∧
      o.1.result_a.getD (o.1.length - 1) ' ' ≠ '-' ∧
      o.1.result_b.getD (o.1.length - 1) ' ' ≠ '-' ∧
      (startSt (⟨a, b, sc⟩ : aligner_t) o.2).mat = Mat.MATCH ∧
      Final (⟨a, b, sc⟩ : aligner_t)
        (finalSt (⟨a, b, sc⟩ : aligner_t) (startSt (⟨a, b, sc⟩ : aligner_t) o.2)) := by
  obtain ⟨_, _, _, _, i5, _, _⟩ := run_inv a b sc hgo hge n
  intro o ho
  obtain ⟨hof, hoS⟩ := i5 o ho
  have hb := (align2_sorted_mem a b sc o.2).mp hoS
  have hg : Good (⟨a, b, sc⟩ : aligner_t) (startSt (⟨a, b, sc⟩ : aligner_t) o.2) :=
    good_start _ _ hb.1 hb.2
  obtain ⟨c1, c2, c3, c4, c5⟩ :=
    followRes_bookends (⟨a, b, sc⟩ : aligner_t) hgo hge hA hB o.2 hg
  rw [hof]
  exact ⟨c1, c2, c3, c4, c5, rfl,
    trace_last_final (⟨a, b, sc⟩ : aligner_t) hgo hge _ (Or.inl hg)⟩

/-- C6, counterexample: on the inputs `"-"`/`"-"` the returned alignment
is the single column `'-'`/`'-'`, so `result_a[0]` is a dash byte. -/
theorem claim_C6_cex :
    ((runFetchP (smith_waterman_align2 ['-'] ['-'] sc_ex) 1).1.map
      (fun o => o.1.result_a.getD 0 ' ')) = ['-'] := by decide

/-- C7: when the probe pass reaches an already-consumed cell mid-path it
aborts, consuming exactly the cells strictly before the abort point —
each of those is clear in the returned bitmap. -/
theorem claim_C7 (al : aligner_t)
    (hgo : al.scoring.gap_open ≤ 0) (hge : al.scoring.gap_extend ≤ 0)
    (st : tstate) (hgf : Good al st ∨ Final al st)
    (mask : List Bool) (fuel : Nat) (hfuel : st.pos al + 1 ≤ fuel)
    (pre : List tstate) (v : tstate) (suf : List tstate)
    (heq : trace al st = pre ++ v :: suf)
    (hpre : ∀ u ∈ pre, mask.getD (u.pos al) false = true)
    (hv : mask.getD (v.pos al) false = false) :
    probeLoop al fuel mask st 0 =
      probe_res.abort (maskClear mask (pre.map (tstate.pos al))) ∧
    ∀ u ∈ pre,
      (maskClear mask (pre.map (tstate.pos al))).getD (u.pos al) false = false := by
  refine ⟨probe_abort_eq al hgo hge st hgf mask 0 fuel pre suf v hfuel heq hpre hv, ?_⟩
  intro u hu
  exact maskClear_mem _ _ _ (List.mem_map_of_mem _ hu)

/-- C7, counterexample: on `al7` after one fetch, following hit 15
aborts at its third cell (consumed by the first alignment), yet cell 1
— a cell hit 15's path would still have used — stays unconsumed in the
returned bitmap. -/
theorem claim_C7_cex :
    (_follow_hit sw7 15).1 = none ∧
    1 ∈ hitCells al7 15 ∧
    (_follow_hit sw7 15).2.getD 1 false = true := by decide

/-- C8: fetch is total: the probe loop never exhausts its (exact) fuel
on a session hit, and a fetch call returns either nothing or a complete
closed-form alignment of a sorted hit, strictly advancing the cursor. -/
theorem claim_C8 (a b : List Char) (sc : scoring_t)
    (hgo : sc.gap_open ≤ 0) (hge : sc.gap_extend ≤ 0) (n : Nat) :
    (∀ h ∈ (smith_waterman_align2 a b sc).history.sorted_match_indices,
      ∀ (mask m' : List Bool),
        probeLoop (⟨a, b, sc⟩ : aligner_t)
            ((startSt (⟨a, b, sc⟩ : aligner_t) h).pos (⟨a, b, sc⟩ : aligner_t) + 1)
            mask (startSt (⟨a, b, sc⟩ : aligner_t) h) 0 ≠ probe_res.fuelOut m') ∧
    ((fetchP (runFetchP (smith_waterman_align2 a b sc) n).2).1 = none ∨
     ∃ r h, (fetchP (runFetchP (smith_waterman_align2 a b sc) n).2).1 = some (r, h) ∧
       r = followRes (⟨a, b, sc⟩ : aligner_t) h ∧
       h ∈ (smith_waterman_align2 a b sc).history.sorted_match_indices ∧
       (runFetchP (smith_waterman_align2 a b sc) n).2.history.next_hit <
         (fetchP (runFetchP (smith_waterman_align2 a b sc) n).2).2.history.next_hit) := by
  obtain ⟨i1, i2, i3, _, _, _, _⟩ := run_inv a b sc hgo hge n
  constructor
  · intro h hh mask m'
    have hb := (align2_sorted_mem a b sc h).mp hh
    have hg : Good (⟨a, b, sc⟩ : aligner_t) (startSt (⟨a, b, sc⟩ : aligner_t) h) :=
      good_start _ _ hb.1 hb.2
    exact probe_no_fuelOut _ hgo hge _ hg mask _ le_rfl m'
  · have hSmem : ∀ h ∈ (runFetchP (smith_waterman_align2 a b sc)
          n).2.history.sorted_match_indices,
        h < (runFetchP (smith_waterman_align2 a b sc) n).2.aligner.score_width *
            (runFetchP (smith_waterman_align2 a b sc) n).2.aligner.score_height ∧
        0 < (runFetchP (smith_waterman_align2 a b sc) n).2.aligner.match_scores h := by
      rw [i1, i2]
      intro h hh
      exact (align2_sorted_mem a b sc h).mp hh
    have hspec := fetchGo_spec (runFetchP (smith_waterman_align2 a b sc) n).2.aligner
      (by rw [i1]; exact hgo) (by rw [i1]; exact hge)
      (runFetchP (smith_waterman_align2 a b sc) n).2.history.sorted_match_indices hSmem
      ((runFetchP (smith_waterman_align2 a b sc)
          n).2.history.sorted_match_indices.length -
        (runFetchP (smith_waterman_align2 a b sc) n).2.history.next_hit)
      (runFetchP (smith_waterman_align2 a b sc) n).2.history.match_scores_mask
      (runFetchP (smith_waterman_align2 a b sc) n).2.history.next_hit
      (by rw [i2]; exact i3) le_rfl
    obtain ⟨_, _, _, _, _, m6⟩ := hspec
    rw [fetchP_eq]
    dsimp only
    set G := fetchGo (runFetchP (smith_waterman_align2 a b sc) n).2.aligner
      (runFetchP (smith_waterman_align2 a b sc) n).2.history.sorted_match_indices
      ((runFetchP (smith_waterman_align2 a b sc)
          n).2.history.sorted_match_indices.length -
        (runFetchP (smith_waterman_align2 a b sc) n).2.history.next_hit)
      (runFetchP (smith_waterman_align2 a b sc) n).2.history.match_scores_mask
      (runFetchP (smith_waterman_align2 a b sc) n).2.history.next_hit with hG
    rcases hres : G.1 with _ | ⟨r, h⟩
    · left
      rfl
    · right
      obtain ⟨j, hj1, hj2, hj3, hj4, hj5, _, _⟩ := m6 r h hres
      refine ⟨r, h, rfl, ?_, ?_, ?_⟩
      · rw [hj5, i1]
      · rw [← i2, ← hj3]
        exact getD_mem_of_lt hj2
      · rw [hj4]
        omega

/-- C9: once fetch reports exhaustion, every further fetch on the same
session reports exhaustion again and leaves the session untouched. -/
theorem claim_C9 (sw sw₁ : sw_aligner_t)
    (hf : smith_waterman_fetch sw = (none, sw₁)) :
    smith_waterman_fetch sw₁ = (none, sw₁) ∧
    ∀ k, runFetch sw₁ k = ([], sw₁) := by
  have hfix := fetch_none_fix sw sw₁ hf
  refine ⟨hfix, ?_⟩
  intro k
  induction k with
  | zero => rfl
  | succ k ih =>
    rw [runFetch_succ, hfix]
    show (Option.toList none ++ (runFetch sw₁ k).1, (runFetch sw₁ k).2) = ([], sw₁)
    rw [ih]
    rfl

/-- C10: a successful follow emits exactly its counted length: the
length is at least 1, the emit pass writes the descending indices
`length-1, …, 0` (all within the reserved capacity), and both buffers
hold the NUL byte at index `length` with room `length + 1`. -/
theorem claim_C10 (a b : List Char) (sc : scoring_t)
    (hgo : sc.gap_open ≤ 0) (hge : sc.gap_extend ≤ 0) (n : Nat) :
    ∀ o ∈ (runFetchP (smith_waterman_align2 a b sc) n).1,
      1 ≤ o.1.length ∧
      o.1.result_a.length = o.1.length + 1 ∧
      o.1.result_b.length = o.1.length + 1 ∧
      o.1.result_a.getD o.1.length ' ' = '\x00' ∧
      o.1.result_b.getD o.1.length ' ' = '\x00' ∧
      (emitLoop (⟨a, b, sc⟩ : aligner_t)
          ((startSt (⟨a, b, sc⟩ : aligner_t) o.2).pos (⟨a, b, sc⟩ : aligner_t) + 1)
          (startSt (⟨a, b, sc⟩ : aligner_t) o.2) (o.1.length - 1)
          (List.replicate (o.1.length + 1) ' ') (List.replicate (o.1.length + 1) ' ')
          []).2.2.1 = (List.range o.1.length).reverse ∧
      (∀ i ∈ (List.range o.1.length).reverse, i < o.1.length) := by
  obtain ⟨_, _, _, _, i5, _, _⟩ := run_inv a b sc hgo hge n
  intro o ho
  obtain ⟨hof, hoS⟩ := i5 o ho
  have hb := (align2_sorted_mem a b sc o.2).mp hoS
  have hg : Good (⟨a, b, sc⟩ : aligner_t) (startSt (⟨a, b, sc⟩ : aligner_t) o.2) :=
    good_start _ _ hb.1 hb.2
  obtain ⟨c1, c2, c3, c4, c5, c6⟩ :=
    followRes_buffers (⟨a, b, sc⟩ : aligner_t) hgo hge o.2 hg
  rw [hof]
  refine ⟨c1, c2, c3, c4, c5, c6, ?_⟩
  intro i hi
  rw [List.mem_reverse, List.mem_range] at hi
  exact hi

/-- C1, witnessed on the one-symbol session. -/
theorem claim_C1_witness :
    sc_ex.gap_open ≤ 0 ∧ sc_ex.gap_extend ≤ 0 ∧
    (runFetchP (smith_waterman_align2 ['A'] ['A'] sc_ex) 1).1 =
      (followRes al_ex 3, 3) :: [] ∧
    ((∀ p, p < al_ex.score_width * al_ex.score_height →
        al_ex.match_scores p ≤ (followRes al_ex 3, 3).1.score) ∧
     (runFetchP (smith_waterman_align2 ['A'] ['A'] sc_ex) 1).1.Pairwise
       (fun u v => v.1.score ≤ u.1.score ∧
         (v.1.score = u.1.score → u.1.pos_a + u.1.len_a ≤ v.1.pos_a + v.1.len_a))) :=
  ⟨by decide, by decide, by decide,
   claim_C1 ['A'] ['A'] sc_ex (by decide) (by decide) 1 (followRes al_ex 3, 3) []
     (by decide)⟩

/-- C2, witnessed on the one-symbol session. -/
theorem claim_C2_witness :
    sc_ex.gap_open ≤ 0 ∧ sc_ex.gap_extend ≤ 0 ∧
    ((∀ o ∈ (runFetchP (smith_waterman_align2 ['A'] ['A'] sc_ex) 1).1,
       o.1 = followRes al_ex o.2) ∧
     (runFetchP (smith_waterman_align2 ['A'] ['A'] sc_ex) 1).1.Pairwise
       (fun u v => ∀ c ∈ hitCells al_ex u.2, c ∉ hitCells al_ex v.2)) :=
  ⟨by decide, by decide, claim_C2 ['A'] ['A'] sc_ex (by decide) (by decide) 1⟩

/-- C3, witnessed on the one-symbol session (no dash in the inputs). -/
theorem claim_C3_witness :
    sc_ex.gap_open ≤ 0 ∧ sc_ex.gap_extend ≤ 0 ∧
    '-' ∉ (['A'] : List Char) ∧ '-' ∉ (['A'] : List Char) ∧
    (∀ o ∈ (runFetchP (smith_waterman_align2 ['A'] ['A'] sc_ex) 1).1,
      o.1.score = al_ex.match_scores o.2 ∧
      recompute_score sc_ex (o.1.result_a.take o.1.length)
        (o.1.result_b.take o.1.length) = o.1.score) :=
  ⟨by decide, by decide, by decide, by decide,
   claim_C3 ['A'] ['A'] sc_ex (by decide) (by decide) (by decide) (by decide) 1⟩

/-- C4, witnessed on the one-symbol session (no dash in the inputs). -/
theorem claim_C4_witness :
    sc_ex.gap_open ≤ 0 ∧ sc_ex.gap_extend ≤ 0 ∧
    '-' ∉ (['A'] : List Char) ∧ '-' ∉ (['A'] : List Char) ∧
    (∀ o ∈ (runFetchP (smith_waterman_align2 ['A'] ['A'] sc_ex) 1).1,
      strip_dashes (o.1.result_a.take o.1.length) =
        (['A'].drop o.1.pos_a).take o.1.len_a ∧
      strip_dashes (o.1.result_b.take o.1.length) =
        (['A'].drop o.1.pos_b).take o.1.len_b) :=
  ⟨by decide, by decide, by decide, by decide,
   claim_C4 ['A'] ['A'] sc_ex (by decide) (by decide) (by decide) (by decide) 1⟩

/-- C6, witnessed on the one-symbol session (no dash in the inputs). -/
theorem claim_C6_witness :
    sc_ex.gap_open ≤ 0 ∧ sc_ex.gap_extend ≤ 0 ∧
    '-' ∉ (['A'] : List Char) ∧ '-' ∉ (['A'] : List Char) ∧
    (∀ o ∈ (runFetchP (smith_waterman_align2 ['A'] ['A'] sc_ex) 1).1,
      1 ≤ o.1.length ∧
      o.1.result_a.getD 0 ' ' ≠ '-' ∧
      o.1.result_b.getD 0 ' ' ≠ '-' ∧
      o.1.result_a.getD (o.1.length - 1) ' ' ≠ '-' ∧
      o.1.result_b.getD (o.1.length - 1) ' ' ≠ '-' ∧
      (startSt al_ex o.2).mat = Mat.MATCH ∧
      Final al_ex (finalSt al_ex (startSt al_ex o.2))) :=
  ⟨by decide, by decide, by decide, by decide,
   claim_C6 ['A'] ['A'] sc_ex (by decide) (by decide) (by decide) (by decide) 1⟩

/-- C7, witnessed on the one-symbol session with the terminating cell
pre-consumed. -/
theorem claim_C7_witness :
    al_ex.scoring.gap_open ≤ 0 ∧ al_ex.scoring.gap_extend ≤ 0 ∧
    (Good al_ex (startSt al_ex 3) ∨ Final al_ex (startSt al_ex 3)) ∧
    (startSt al_ex 3).pos al_ex + 1 ≤ 4 ∧
    trace al_ex (startSt al_ex 3) =
      [startSt al_ex 3] ++ (⟨Mat.MATCH, 0, 0, 0⟩ : tstate) :: [] ∧
    (∀ u ∈ [startSt al_ex 3],
      ((List.replicate 4 true).set 0 false).getD (u.pos al_ex) false = true) ∧
    ((List.replicate 4 true).set 0 false).getD
      ((⟨Mat.MATCH, 0, 0, 0⟩ : tstate).pos al_ex) false = false ∧
    (probeLoop al_ex 4 ((List.replicate 4 true).set 0 false) (startSt al_ex 3) 0 =
       probe_res.abort (maskClear ((List.replicate 4 true).set 0 false)
         ([startSt al_ex 3].map (tstate.pos al_ex))) ∧
     ∀ u ∈ [startSt al_ex 3],
       (maskClear ((List.replicate 4 true).set 0 false)
         ([startSt al_ex 3].map (tstate.pos al_ex))).getD (u.pos al_ex) false = false) :=
  ⟨by decide, by decide, by decide, by decide, by decide, by decide, by decide,
   claim_C7 al_ex (by decide) (by decide) (startSt al_ex 3) (by decide)
     ((List.replicate 4 true).set 0 false) 4 (by decide)
     [startSt al_ex 3] ⟨Mat.MATCH, 0, 0, 0⟩ [] (by decide) (by decide) (by decide)⟩

/-- C8, witnessed on the freshly aligned one-symbol session. -/
theorem claim_C8_witness :
    sc_ex.gap_open ≤ 0 ∧ sc_ex.gap_extend ≤ 0 ∧
    ((∀ h ∈ (smith_waterman_align2 ['A'] ['A'] sc_ex).history.sorted_match_indices,
       ∀ (mask m' : List Bool),
         probeLoop al_ex ((startSt al_ex h).pos al_ex + 1) mask (startSt al_ex h) 0 ≠
           probe_res.fuelOut m') ∧
     ((fetchP (runFetchP (smith_waterman_align2 ['A'] ['A'] sc_ex) 0).2).1 = none ∨
      ∃ r h, (fetchP (runFetchP (smith_waterman_align2 ['A'] ['A'] sc_ex) 0).2).1 =
          some (r, h) ∧
        r = followRes al_ex h ∧
        h ∈ (smith_waterman_align2 ['A'] ['A'] sc_ex).history.sorted_match_indices ∧
        (runFetchP (smith_waterman_align2 ['A'] ['A'] sc_ex) 0).2.history.next_hit <
          (fetchP (runFetchP (smith_waterman_align2 ['A'] ['A'] sc_ex)
            0).2).2.history.next_hit)) :=
  ⟨by decide, by decide, claim_C8 ['A'] ['A'] sc_ex (by decide) (by decide) 0⟩

/-- C9, witnessed on an empty session (no hits, first fetch already
reports exhaustion). -/
theorem claim_C9_witness :
    smith_waterman_fetch (smith_waterman_align2 [] [] sc_ex) =
      (none, smith_waterman_align2 [] [] sc_ex) ∧
    (smith_waterman_fetch (smith_waterman_align2 [] [] sc_ex) =
       (none, smith_waterman_align2 [] [] sc_ex) ∧
     ∀ k, runFetch (smith_waterman_align2 [] [] sc_ex) k =
       ([], smith_waterman_align2 [] [] sc_ex)) :=
  ⟨by rfl, claim_C9 (smith_waterman_align2 [] [] sc_ex)
     (smith_waterman_align2 [] [] sc_ex) (by rfl)⟩

/-- C10, witnessed on the one-symbol session. -/
theorem claim_C10_witness :
    sc_ex.gap_open ≤ 0 ∧ sc_ex.gap_extend ≤ 0 ∧
    (∀ o ∈ (runFetchP (smith_waterman_align2 ['A'] ['A'] sc_ex) 1).1,
      1 ≤ o.1.length ∧
      o.1.result_a.length = o.1.length + 1 ∧
      o.1.result_b.length = o.1.length + 1 ∧
      o.1.result_a.getD o.1.length ' ' = '\x00' ∧
      o.1.result_b.getD o.1.length ' ' = '\x00' ∧
      (emitLoop al_ex ((startSt al_ex o.2).pos al_ex + 1) (startSt al_ex o.2)
          (o.1.length - 1) (List.replicate (o.1.length + 1) ' ')
          (List.replicate (o.1.length + 1) ' ') []).2.2.1 =
        (List.range o.1.length).reverse ∧
      (∀ i ∈ (List.range o.1.length).reverse, i < o.1.length)) :=
  ⟨by decide, by decide, claim_C10 ['A'] ['A'] sc_ex (by decide) (by decide) 1⟩
